import Mathlib

/-!
Verification development for the critical-CSS extractor and site optimizer
(`critical_css_extractor.py`, `site_optimizer.py`).

The Python code is shallowly embedded: strings are Lean `String`s operated on
through their character lists, Python `int()` becomes a partial parse returning
`Option Int`, raising operations return `Option`, and the BeautifulSoup
document tree becomes the inductive `Node` type below.  Every definition is
translated from the source; comments point to the line it embeds.
-/

set_option maxRecDepth 8000

namespace PagespeedAI

/-! ## Python string primitives -/

/-- Python `str.strip()` whitespace class (ASCII part). -/
def pyWs (c : Char) : Bool :=
  c == ' ' || c == '\t' || c == '\n' || c == '\r' || c == '\x0c' || c == '\x0b'

/-- Python `str.strip()` on a character list. -/
def pyStripL (l : List Char) : List Char :=
  ((l.dropWhile pyWs).reverse.dropWhile pyWs).reverse

/-- Python `str.strip()`. -/
def pyStrip (s : String) : String := ⟨pyStripL s.data⟩

/-- Python `str.split(sep)` for a one-character separator, on lists:
`''.split(',') == ['']`, separators are not grouped. -/
def pySplitL (sep : Char) : List Char → List (List Char)
  | [] => [[]]
  | c :: cs =>
    if c == sep then [] :: pySplitL sep cs
    else match pySplitL sep cs with
      | [] => [[c]]
      | p :: ps => (c :: p) :: ps

/-- Python `str.split(sep)` for a one-character separator. -/
def pySplit (sep : Char) (s : String) : List String :=
  (pySplitL sep s.data).map (fun l => ⟨l⟩)

/-- Python `str.startswith(p)` for a one-character prefix. -/
def pyStartsWith (c : Char) (s : String) : Bool :=
  match s.data with
  | [] => false
  | c' :: _ => c' == c

/-- Does `s` start with the character sequence `pat`? -/
def startsSeq : List Char → List Char → Bool
  | [], _ => true
  | _ :: _, [] => false
  | a :: as, b :: bs => a == b && startsSeq as bs

/-- Python `pat in s` (substring containment) on character lists. -/
def hasSeq (pat : List Char) : List Char → Bool
  | [] => startsSeq pat []
  | c :: rest => startsSeq pat (c :: rest) || hasSeq pat rest

/-- Python `pat in s` (substring containment) on strings. -/
def pyIn (pat s : String) : Bool := hasSeq pat.data s.data

/-- Python `str.lower()` (ASCII part). -/
def pyLower (s : String) : String := ⟨s.data.map Char.toLower⟩

/-- Worker for `pyWsSplit`: `cur` is the (reversed) token being read. -/
def pyWsSplitGo (cur : List Char) : List Char → List (List Char)
  | [] => if cur.isEmpty then [] else [cur.reverse]
  | c :: cs =>
    if pyWs c then
      if cur.isEmpty then pyWsSplitGo [] cs
      else cur.reverse :: pyWsSplitGo [] cs
    else pyWsSplitGo (c :: cur) cs

/-- Python whitespace tokenisation, `str.split()` with no argument:
runs of whitespace separate tokens, no empty tokens. -/
def pyWsSplit (l : List Char) : List (List Char) := pyWsSplitGo [] l

/-! ## Python `int()` -/

/-- Digit run with single underscores allowed between digits, as accepted by
Python `int()` (e.g. `int("1_0") == 10`); returns the value. -/
def pyDigitsAux (acc : Nat) : List Char → Option Nat
  | [] => some acc
  | '_' :: rest =>
    match rest with
    | c :: cs => if c.isDigit then pyDigitsAux (acc * 10 + (c.toNat - 48)) cs else none
    | [] => none
  | c :: cs => if c.isDigit then pyDigitsAux (acc * 10 + (c.toNat - 48)) cs else none

/-- Nonempty digit run (with `_` group separators) for Python `int()`. -/
def pyDigits : List Char → Option Nat
  | [] => none
  | c :: cs => if c.isDigit then pyDigitsAux (c.toNat - 48) cs else none

/-- Python `int(s)` on a decimal string: surrounding whitespace, optional
sign, digits; `none` models the `ValueError` raised by CPython. -/
def pyInt (s : String) : Option Int :=
  match pyStripL s.data with
  | '+' :: rest => (pyDigits rest).map Int.ofNat
  | '-' :: rest => (pyDigits rest).map (fun n => -(n : Int))
  | rest => (pyDigits rest).map Int.ofNat

/-! ## The CSS rule scan

Both `parse_css` (line 81: `re.compile(r'([^{]+){[^}]*}')`) and
`generate_critical_css` (line 232: `re.compile(r'([^{]+){([^}]*)}')`) scan the
stylesheet with the same regular expression; `cssFindall` is `findall` for
that pattern: leftmost non-overlapping matches, the selector group being the
maximal brace-free run before a `\x7b` and the body the maximal run without
`\x7d` after it. -/

/-- Fuelled worker for `cssFindall`; each step consumes at least one
character, so `cs.length` units of fuel always suffice and the fuel-0 branch
is never taken from `cssFindall`. -/
def cssFindallFuel : Nat → List Char → List (List Char × List Char)
  | 0, _ => []
  | fuel + 1, cs =>
    match (cs.dropWhile (· == '{')).dropWhile (· != '{') with
    | [] => []
    | _ :: afterBrace =>
      match afterBrace.dropWhile (· != '}') with
      | [] => []
      | _ :: tail =>
        ((cs.dropWhile (· == '{')).takeWhile (· != '{'),
          afterBrace.takeWhile (· != '}')) :: cssFindallFuel fuel tail

/-- `re.findall(r'([^{]+){([^}]*)}', s)`: list of (selector text, body text)
pairs; leftmost non-overlapping matches, the selector group being the
maximal brace-free run before a `\x7b` and the body the maximal run without
a `\x7d` after it. -/
def cssFindall (cs : List Char) : List (List Char × List Char) :=
  cssFindallFuel cs.length cs

/-! ## `CriticalCSSExtractor.parse_css` (lines 77-95) -/

/-- `parse_css`: extract the selectors of every rule, skipping any rule whose
trimmed selector text starts with `@`, and splitting selector groups on
commas. -/
def parse_css (css_content : String) : List String :=
  (cssFindall css_content.data).foldl
    (fun selectors m =>
      let selector := pyStrip ⟨m.1⟩
      if pyStartsWith '@' selector then selectors
      else selectors ++ (pySplit ',' selector).map pyStrip)
    []

/-! ## `CriticalCSSExtractor.match_selectors` (lines 162-176)

Line 168 removes pseudo-classes/elements with
`re.sub(r'::?[a-zA-Z-]+(\([^)]*\))?', '', css_selector)`. -/

/-- Is `c` in the regex class `[a-zA-Z-]`? -/
def pseudoIdentChar (c : Char) : Bool := c.isAlpha || c == '-'

/-- Length of the leftmost match of `::?[a-zA-Z-]+(\([^)]*\))?` anchored at
the head of `cs`, if any.  The optional second colon is taken greedily; when
it is taken the identifier cannot instead start at the second colon, so no
backtracking case is lost.  The parenthesised group is taken only when a
closing parenthesis exists (otherwise the optional group fails and the match
ends after the identifier). -/
def pseudoLen (cs : List Char) : Option Nat :=
  match cs with
  | ':' :: rest =>
    let colons : Nat := if rest.head? == some ':' then 2 else 1
    let rest' := if rest.head? == some ':' then rest.tail else rest
    let ident := rest'.takeWhile pseudoIdentChar
    if ident.isEmpty then none
    else
      let afterIdent := rest'.drop ident.length
      match afterIdent with
      | '(' :: r3 =>
        let arg := r3.takeWhile (· != ')')
        match r3.drop arg.length with
        | ')' :: _ => some (colons + ident.length + 1 + arg.length + 1)
        | _ => some (colons + ident.length)
      | _ => some (colons + ident.length)
  | _ => none

/-- Fuelled worker for `stripPseudoL`; each step consumes at least one
character (a match is at least two characters long), so `l.length` units of
fuel always suffice and the fuel-0 branch is never taken. -/
def stripPseudoFuel : Nat → List Char → List Char
  | 0, l => l
  | _ + 1, [] => []
  | fuel + 1, c :: cs =>
    match pseudoLen (c :: cs) with
    | some l => stripPseudoFuel fuel (cs.drop (l - 1))
    | none => c :: stripPseudoFuel fuel cs

/-- `re.sub(r'::?[a-zA-Z-]+(\([^)]*\))?', '', ·)` on a character list:
delete every (leftmost, non-overlapping) pseudo-class/pseudo-element match. -/
def stripPseudoL (l : List Char) : List Char := stripPseudoFuel l.length l

/-- The `base_selector` of line 168: the selector with pseudo suffixes
removed. -/
def baseSelector (css_selector : String) : String := ⟨stripPseudoL css_selector.data⟩

/-- `match_selectors`: collect every CSS selector some element signature is a
substring of (after pseudo stripping); the inner `for`/`break` loop is the
`List.any`. -/
def match_selectors (element_selectors : List String) (css_selectors : List String) :
    List String :=
  css_selectors.foldl
    (fun matching css_selector =>
      let base_selector := baseSelector css_selector
      if element_selectors.any (fun e => pyIn e base_selector) then
        matching ++ [css_selector]
      else matching)
    []

/-! ## `CriticalCSSExtractor.generate_critical_css` (lines 212-255) -/

/-- The header comment written at line 214. -/
def cssHeader : String := "/* Critical CSS extracted by PageSpeed AI */\n"

/-- The fixed box-sizing preamble appended at lines 217-227 (the triple-quoted
string starts with a newline). -/
def cssPreamble : String :=
  "\nhtml, body \x7b\n    margin: 0;\n    padding: 0;\n    box-sizing: border-box;\n\x7d\n\n*, *::before, *::after \x7b\n    box-sizing: inherit;\n\x7d\n"

/-- Lines 249-251: split the declaration body on `;`, drop blank fragments,
re-emit one per line with four spaces of indentation. -/
def renderDecls (rules : String) : String :=
  String.join ((((pySplit ';' rules).map pyStrip).filter (· != "")).map
    (fun r => "    " ++ r ++ ";\n"))

/-- Lines 246-253: the text emitted for one matched rule. -/
def renderRule (selector : String) (rules : String) : String :=
  selector ++ " \x7b\n" ++ renderDecls rules ++ "\x7d\n\n"

/-- `generate_critical_css`: header plus preamble, then every rule of every
stylesheet whose comma-split selector group meets `critical_selectors`,
skipping rules whose trimmed selector group starts with `@`.
`css_contents` is the `self.css_contents` dict as (origin, text) pairs. -/
def generate_critical_css (critical_selectors : List String)
    (css_contents : List (String × String)) : String :=
  css_contents.foldl
    (fun acc p =>
      (cssFindall p.2.data).foldl
        (fun acc2 m =>
          let selector := pyStrip ⟨m.1⟩
          if pyStartsWith '@' selector then acc2
          else
            let selector_parts := (pySplit ',' selector).map pyStrip
            if selector_parts.any (fun s => critical_selectors.contains s) then
              acc2 ++ renderRule selector ⟨m.2⟩
            else acc2)
        acc)
    (cssHeader ++ cssPreamble)

/-! ## The document tree

A BeautifulSoup document is modelled as a forest of nodes; `find_all`
enumerates element nodes in document (pre-)order.  Attributes keep their
document order; the `class` attribute is whitespace-tokenised on access, as
BeautifulSoup's multi-valued attribute handling does. -/

/-- A parsed HTML node: an element with attributes and children, or text. -/
inductive Node where
  | elem (tag : String) (attrs : List (String × String)) (children : List Node)
  | text (s : String)

/-! Decidable equality on the nested inductive `Node`, written by hand (the
deriving handler does not support nested inductives); it also gives the `==`
used to model BeautifulSoup's structural `Tag.__eq__`. -/

mutual
def Node.decEq : (a b : Node) → Decidable (a = b)
  | .text s, .text t =>
    if h : s = t then isTrue (by rw [h]) else isFalse (by intro he; injection he; contradiction)
  | .elem t1 a1 c1, .elem t2 a2 c2 =>
    if h1 : t1 = t2 then
      if h2 : a1 = a2 then
        match Node.forestDecEq c1 c2 with
        | isTrue h3 => isTrue (by rw [h1, h2, h3])
        | isFalse h3 => isFalse (by intro he; injection he; contradiction)
      else isFalse (by intro he; injection he; contradiction)
    else isFalse (by intro he; injection he; contradiction)
  | .text _, .elem _ _ _ => isFalse (by intro he; injection he)
  | .elem _ _ _, .text _ => isFalse (by intro he; injection he)
def Node.forestDecEq : (a b : List Node) → Decidable (a = b)
  | [], [] => isTrue rfl
  | [], _ :: _ => isFalse (by intro he; injection he)
  | _ :: _, [] => isFalse (by intro he; injection he)
  | n :: ns, m :: ms =>
    match Node.decEq n m, Node.forestDecEq ns ms with
    | isTrue h1, isTrue h2 => isTrue (by rw [h1, h2])
    | isFalse h1, _ => isFalse (by intro he; injection he; contradiction)
    | _, isFalse h2 => isFalse (by intro he; injection he; contradiction)
end

instance : DecidableEq Node := Node.decEq

/-- The tag of a node (text nodes have none). -/
def Node.tag? : Node → Option String
  | .elem t _ _ => some t
  | .text _ => none

/-- Is this an element with the given tag? -/
def Node.tagIs (n : Node) (t : String) : Bool := n.tag? == some t

/-- The attribute list of a node. -/
def Node.attrs : Node → List (String × String)
  | .elem _ a _ => a
  | .text _ => []

/-- Attribute lookup (`tag['k']` / `tag.get('k')`): first binding wins. -/
def Node.getAttr (n : Node) (key : String) : Option String :=
  (n.attrs.find? (fun p => p.1 == key)).map Prod.snd

/-- `tag.has_attr(k)`. -/
def Node.hasAttr (n : Node) (key : String) : Bool := (n.getAttr key).isSome

/-- `tag['k'] = v`: replace the first binding of `k` in place, appending a new
binding when `k` is absent (dict insertion-order semantics). -/
def setPair (key value : String) : List (String × String) → List (String × String)
  | [] => [(key, value)]
  | p :: ps => if p.1 == key then (key, value) :: ps else p :: setPair key value ps

/-- `tag['k'] = v` on a node (no-op on text nodes). -/
def Node.setAttr (n : Node) (key value : String) : Node :=
  match n with
  | .elem t a c => .elem t (setPair key value a) c
  | .text s => .text s

/-- The whitespace-tokenised `class` attribute (BeautifulSoup's multi-valued
view; `[]` when the attribute is missing). -/
def Node.classes (n : Node) : List String :=
  match n.getAttr "class" with
  | some v => (pyWsSplit v.data).map (fun l => ⟨l⟩)
  | none => []

/-! `nodeElems` lists all element nodes of a node's subtree, itself included,
in document order; `forestElems` the same over a forest.  `find_all(pred)` is
`(forestElems doc).filter pred`. -/
mutual
def nodeElems : Node → List Node
  | .elem t a c => .elem t a c :: forestElems c
  | .text _ => []
def forestElems : List Node → List Node
  | [] => []
  | n :: ns => nodeElems n ++ forestElems ns
end

/-! ## `CriticalCSSExtractor.find_above_fold_elements` (lines 97-129) -/

/-- Line 108: `find_all(['header', 'nav'])`. -/
def isHeaderNav (n : Node) : Bool := n.tagIs "header" || n.tagIs "nav"

/-- Line 111: class filter `lambda c: c and ('hero' in c.lower() or 'banner'
in c.lower())`, applied to each class token. -/
def isHeroBanner (n : Node) : Bool :=
  n.classes.any (fun c => pyIn "hero" (pyLower c) || pyIn "banner" (pyLower c))

/-- Line 115: `find_all(['section', 'div'], class_=lambda c: c and 'section'
in c.lower())`. -/
def isSectionLike (n : Node) : Bool :=
  (n.tagIs "section" || n.tagIs "div") && n.classes.any (fun c => pyIn "section" (pyLower c))

/-- Line 124: images carrying both a `width` and a `height` attribute. -/
def isSizedImg (n : Node) : Bool :=
  n.tagIs "img" && n.hasAttr "width" && n.hasAttr "height"

/-- The sized images of a document, in document order. -/
def sizedImgs (doc : List Node) : List Node := (forestElems doc).filter isSizedImg

/-- Line 126's sort key `int(img['width']) * int(img['height'])`; `none` is
the `ValueError` of `int()` on a non-integer attribute value. -/
def areaKey (img : Node) : Option Int := do
  let w ← pyInt ((img.getAttr "width").getD "")
  let h ← pyInt ((img.getAttr "height").getD "")
  pure (w * h)

/-- Pair every sized image with its sort key; computing any key may raise. -/
def keyedImgs : List Node → Option (List (Node × Int))
  | [] => some []
  | i :: is =>
    match areaKey i, keyedImgs is with
    | some a, some t => some ((i, a) :: t)
    | _, _ => none

/-- One step of the stable descending insertion modelling `list.sort(key=...,
reverse=True)`: an element is placed before the first strictly smaller key,
and before equal keys only if it preceded them. -/
def insertDesc (p : Node × Int) : List (Node × Int) → List (Node × Int)
  | [] => [p]
  | q :: qs => if p.2 ≥ q.2 then p :: q :: qs else q :: insertDesc p qs

/-- Stable descending sort by key (Python `sort(key=..., reverse=True)`). -/
def sortDesc : List (Node × Int) → List (Node × Int)
  | [] => []
  | p :: ps => insertDesc p (sortDesc ps)

/-- `find_above_fold_elements`: headers and navs, hero/banner-classed
elements, the first three `section`-classed sections/divs, then the largest
sized image.  `none` models the `ValueError` raised at line 126 when a sized
image's `width`/`height` is not an integer literal. -/
def find_above_fold_elements (doc : List Node) : Option (List Node) :=
  let all := forestElems doc
  let above_fold :=
    all.filter isHeaderNav ++ all.filter isHeroBanner ++ (all.filter isSectionLike).take 3
  match keyedImgs (sizedImgs doc) with
  | none => none
  | some keyed => some (above_fold ++ ((sortDesc keyed).head?.map Prod.fst).toList)

/-- The image appended by lines 120-127, described directly: the first sized
image attaining the maximal area (`firstMax` keeps the earlier of two equal
keys). -/
def firstMax : List (Node × Int) → Option (Node × Int)
  | [] => none
  | p :: ps =>
    match firstMax ps with
    | none => some p
    | some q => if p.2 ≥ q.2 then some p else some q

/-- The dominant image of a document: first sized image of maximal declared
area, `none` when there is no sized image or a size fails to parse. -/
def dominantImage (doc : List Node) : Option Node :=
  match keyedImgs (sizedImgs doc) with
  | none => none
  | some keyed => (firstMax keyed).map Prod.fst

/-! ## `CriticalCSSExtractor.extract_element_selectors` (lines 131-160)

Elements are taken together with the tag of their parent (`none` both for a
missing parent and for the `'[document]'` root, which line 151 excludes).
The Python `set` is modelled as a first-insertion-ordered duplicate-free
list; only membership is used downstream. -/

/-- Insert into a set-as-list (Python `set.add`). -/
def setAdd (s : List String) (x : String) : List String :=
  if s.contains x then s else s ++ [x]

/-- The signatures contributed by one element (lines 135-158). -/
def elementSignatures (acc : List String) (element : Node) (parentTag : Option String) :
    List String :=
  let tag := (element.tag?).getD ""
  let acc := setAdd acc tag
  let acc := element.classes.foldl
    (fun a cls => setAdd (setAdd a ("." ++ cls)) (tag ++ "." ++ cls)) acc
  let acc := match element.getAttr "id" with
    | some i => setAdd acc ("#" ++ i)
    | none => acc
  match parentTag with
  | some p =>
    let acc := setAdd acc (p ++ " " ++ tag)
    element.classes.foldl (fun a cls => setAdd a (p ++ " ." ++ cls)) acc
  | none => acc

/-- `extract_element_selectors`: the signature set of a list of elements. -/
def extract_element_selectors (elements : List (Node × Option String)) : List String :=
  elements.foldl (fun acc e => elementSignatures acc e.1 e.2) []

/-! ## Serialisation

`_optimize_html` measures an element's position as
`len(str(parent.find_previous_siblings()))` (site_optimizer.py line 323):
the length of the Python `str` of the list of previous sibling tags.  The
serialiser below renders BeautifulSoup's output shape (`<t a="v">…</t>`,
void elements self-closed); entity escaping is omitted, a best-effort
simplification that only affects this length heuristic. -/

/-- Attribute rendering ` k="v"`. -/
def attrsStr (attrs : List (String × String)) : String :=
  String.join (attrs.map (fun p => " " ++ p.1 ++ "=\x22" ++ p.2 ++ "\x22"))

/-- HTML void elements, which serialise self-closed. -/
def voidTags : List String :=
  ["area", "base", "br", "col", "embed", "hr", "img", "input", "link", "meta",
   "source", "track", "wbr"]

mutual
def nodeStr : Node → String
  | .text s => s
  | .elem t a c =>
    if voidTags.contains t then "<" ++ t ++ attrsStr a ++ "/>"
    else "<" ++ t ++ attrsStr a ++ ">" ++ forestStr c ++ "</" ++ t ++ ">"
def forestStr : List Node → String
  | [] => ""
  | n :: ns => nodeStr n ++ forestStr ns
end

/-- Python `str` of a list of tags: `[repr, repr, ...]`. -/
def pyListStr (l : List Node) : String :=
  "[" ++ String.intercalate ", " (l.map nodeStr) ++ "]"

/-- `len(str(parent.find_previous_siblings()))`, given those siblings. -/
def posLen (prevSibs : List Node) : Nat := (pyListStr prevSibs).length

/-! ## `SiteOptimizer` state (site_optimizer.py)

`self.resources` entries are dicts `{url, element}` optionally extended with
`local_path` by `download_resources` and, for images, `width`/`height`/
`webp_path` by `_optimize_images`. -/

/-- A `self.resources["css"]` / `["js"]` / `["fonts"]` entry. -/
structure UrlResource where
  url : String
  element : Node
  local_path : Option String
deriving DecidableEq

/-- A `self.resources["images"]` entry (`width`/`height` are the PIL
dimensions recorded by `_optimize_images`, set together or not at all). -/
structure ImgResource where
  url : String
  element : Node
  local_path : Option String
  width : Option Int
  height : Option Int
  webp_path : Option String
deriving DecidableEq

/-- The `SiteOptimizer` fields `_optimize_html` touches: the original DOM,
the resource lists, the critical-CSS file content (present exactly when
`"critical" in self.optimized_resources["css"]`), and the
`applied_optimizations` log. -/
structure OptimizerState where
  dom : List Node
  resources_css : List UrlResource
  resources_js : List UrlResource
  resources_images : List ImgResource
  resources_fonts : List UrlResource
  critical_css : Option String
  applied_optimizations : List String
deriving DecidableEq

/-! ## Tree editing helpers

Python mutates the object bound by `head = optimized_dom.find('head')`; in
the value world this is an edit of the first pre-order element matching a
predicate. -/

mutual
def editFirstNode (pred : Node → Bool) (f : Node → Node) : Node → (Node × Bool)
  | .text s => (.text s, false)
  | .elem t a c =>
    if pred (.elem t a c) then (f (.elem t a c), true)
    else
      match editFirstForest pred f c with
      | (c', true) => (.elem t a c', true)
      | (_, false) => (.elem t a c, false)
def editFirstForest (pred : Node → Bool) (f : Node → Node) :
    List Node → (List Node × Bool)
  | [] => ([], false)
  | n :: ns =>
    match editFirstNode pred f n with
    | (n', true) => (n' :: ns, true)
    | (_, false) =>
      match editFirstForest pred f ns with
      | (ns', done) => (n :: ns', done)
end

/-- Edit the first pre-order element matching `pred` (no-op when absent). -/
def editFirst (pred : Node → Bool) (f : Node → Node) (doc : List Node) : List Node :=
  (editFirstForest pred f doc).1

/-- Python `tag.insert(k, child)`. -/
def insertChildAt (k : Nat) (child : Node) : Node → Node
  | .elem t a c => .elem t a (c.take k ++ child :: c.drop k)
  | .text s => .text s

/-- Python `tag.append(child)`. -/
def appendChild (child : Node) : Node → Node
  | .elem t a c => .elem t a (c ++ [child])
  | .text s => .text s

/-! ## `_optimize_html` step 1 (lines 250-259): ensure a head exists -/

def headNode : Node := .elem "head" [] []

/-- Find-or-create `head`: insert an empty head first into the first `html`
element, or append a fresh `html` wrapping it when even that is missing. -/
def ensureHead (doc : List Node) : List Node :=
  if (forestElems doc).any (·.tagIs "head") then doc
  else if (forestElems doc).any (·.tagIs "html") then
    editFirst (·.tagIs "html") (insertChildAt 0 headNode) doc
  else doc ++ [.elem "html" [] [headNode]]

/-! ## Step 2 (lines 262-270): inline the critical CSS -/

def styleNode (css : String) : Node := .elem "style" [] [.text css]

/-- Insert a style element holding the critical CSS as head's first child
when a critical stylesheet was produced. -/
def inlineCritical (critical : Option String) (doc : List Node) : List Node :=
  match critical with
  | some css => editFirst (·.tagIs "head") (insertChildAt 0 (styleNode css)) doc
  | none => doc

/-! ## Steps 3-4 (lines 272-292): rewrite stylesheet links, add noscript
fallbacks

`rel` is a multi-valued attribute: `find_all('link', rel='stylesheet')`
matches a token of the whitespace-split value.  The second loop reads
`link['href']` (line 290) with no guard: a stylesheet link without `href`
raises `KeyError`, modelled by `none`. -/

/-- The whitespace-tokenised `rel` attribute. -/
def relTokens (n : Node) : List String :=
  match n.getAttr "rel" with
  | some v => (pyWsSplit v.data).map (fun l => ⟨l⟩)
  | none => []

/-- `find_all('link', rel='stylesheet')` membership. -/
def isStylesheetLink (n : Node) : Bool :=
  n.tagIs "link" && (relTokens n).contains "stylesheet"

/-- The onload handler of line 278. -/
def onloadHandler : String := "this.onload=null;this.rel=\x27stylesheet\x27"

/-- Lines 276-283: convert one stylesheet link to a preload, then point it at
the local copy for the first structurally equal css resource (the comparison
happens after the attribute rewrites, so it compares agains the rewritten
link, exactly as the source does). -/
def rewriteLinkAttrs (css_resources : List UrlResource) (link : Node) : Node :=
  let link := (link.setAttr "rel" "preload").setAttr "as" "style"
  let link := link.setAttr "onload" onloadHandler
  css_resources.foldl
    (fun l r =>
      if r.element == l then
        match r.local_path with
        | some lp => l.setAttr "href" lp
        | none => l
      else l)
    link

/-- Lines 286-292: the noscript fallback inserted after a rewritten link. -/
def noscriptFor (href : String) : Node :=
  .elem "noscript" [] [.elem "link" [("rel", "stylesheet"), ("href", href)] []]

mutual
def linksNode (rs : List UrlResource) : Node → Option (List Node)
  | .text s => some [.text s]
  | .elem t a c =>
    if isStylesheetLink (.elem t a c) then
      let link := rewriteLinkAttrs rs (.elem t a c)
      match link.getAttr "href" with
      | some h => some [link, noscriptFor h]
      | none => none
    else
      match linksForest rs c with
      | some c' => some [.elem t a c']
      | none => none
def linksForest (rs : List UrlResource) : List Node → Option (List Node)
  | [] => some []
  | n :: ns =>
    match linksNode rs n, linksForest rs ns with
    | some l, some ls => some (l ++ ls)
    | _, _ => none
end

/-! ## Step 5 (lines 294-304): defer scripts -/

/-- `find_all('script', src=True)` membership. -/
def isSrcScript (n : Node) : Bool := n.tagIs "script" && n.hasAttr "src"

/-- Lines 296-304: add `defer` unless `async` is present, then point the
script at the local copy of the first structurally equal js resource. -/
def deferScriptAttrs (js : List UrlResource) (s : Node) : Node :=
  let s1 := if s.hasAttr "async" then s else s.setAttr "defer" ""
  js.foldl
    (fun sc r =>
      if r.element == sc then
        match r.local_path with
        | some lp => sc.setAttr "src" lp
        | none => sc
      else sc)
    s1

mutual
def scriptsNode (js : List UrlResource) : Node → Node
  | .text s => .text s
  | .elem t a c =>
    if isSrcScript (.elem t a c) then deferScriptAttrs js (.elem t a c)
    else .elem t a (scriptsForest js c)
def scriptsForest (js : List UrlResource) : List Node → List Node
  | [] => []
  | n :: ns => scriptsNode js n :: scriptsForest js ns
end

/-! ## Step 6 (lines 306-383): image pass and LCP candidate

`images = find_all('img', src=True)` is evaluated once, before the loop;
each iteration then recomputes the position proxy
`len(str(parent.find_previous_siblings()))` (line 323) on the LIVE tree,
i.e. after the earlier iterations' mutations, matches every downloaded
resource structurally against the (progressively mutated) image, updates
the image's attributes, feeds the largest-area LCP comparison (guarded by
`position < 800` and a strict `>` against a running maximum initialised to
0), and wraps the image in a `picture` element when a WebP copy exists (the
picture is appended at the end of the image's parent, where the source's
`parent_node.append` puts it). -/

/-- `find_all('img', src=True)` membership. -/
def isSrcImg (n : Node) : Bool := n.tagIs "img" && n.hasAttr "src"

/-! The static auxiliary walk: every image paired with the position its
parent's previous siblings have on the UNMUTATED tree.  This is not line
323 itself (which reads the live tree); it is the value the live walk
`liveImgInfos` below provably collapses to when the loop's mutations leave
the tree unchanged (`liveImgsGo_static`), the regime of the amended C5. -/
mutual
def imgsNode (parentPrev myPrev : List Node) : Node → List (Node × Nat)
  | .text _ => []
  | .elem t a c =>
    (if isSrcImg (.elem t a c) then [(Node.elem t a c, posLen parentPrev)] else [])
      ++ imgsForestGo myPrev [] c
def imgsForestGo (parentPrev prevAcc : List Node) : List Node → List (Node × Nat)
  | [] => []
  | n :: ns =>
    imgsNode parentPrev prevAcc n ++
      imgsForestGo parentPrev
        (match n with
          | .elem t a c => Node.elem t a c :: prevAcc
          | .text _ => prevAcc)
        ns
end

/-- Every `src`-bearing image of the document in document order, paired with
its unmutated-tree position proxy (the images' parents' previous sibling
tags are accumulated closest-first, as `find_previous_siblings` returns
them). -/
def imgInfos (doc : List Node) : List (Node × Nat) := imgsForestGo [] [] doc

/-- The running LCP scan state: `lcp_candidate` (as an index into the image
list) and `largest_area` of lines 312-313. -/
structure LcpState where
  cand : Option Nat
  largest : Int

/-- The outcome of processing one image: its mutated element and the webp
`srcset` values it was successively wrapped for. -/
structure ImgOut where
  final : Node
  webps : List String
deriving DecidableEq

/-- The viewport height assumed at line 311. -/
def viewportHeight : Nat := 800

/-- The body of the per-image resource loop (lines 325-365): a structurally
matching resource with a local copy rewrites `src`, then (when recorded
dimensions exist) the size attributes and the LCP comparison, then records a
WebP wrap. -/
def processImgStep (idx : Nat) (pos : Nat) (acc : ImgOut × LcpState) (r : ImgResource) :
    ImgOut × LcpState :=
  let out := acc.1
  let st := acc.2
  if r.element == out.final then
    match r.local_path with
    | none => (out, st)
    | some lp =>
      let cur := out.final.setAttr "src" lp
      let next :=
        match r.width, r.height with
        | some w, some h =>
          let cur := (cur.setAttr "width" (toString w)).setAttr "height" (toString h)
          let area := w * h
          if pos < viewportHeight && area > st.largest then
            (cur, LcpState.mk (some idx) area)
          else (cur, st)
        | _, _ => (cur, st)
      let webps :=
        match r.webp_path with
        | some wp => out.webps ++ [wp]
        | none => out.webps
      ({ final := next.1, webps := webps }, next.2)
  else (out, st)

/-- Lines 325-365 for a single image: fold over the image resources,
threading the image's mutated value (later comparisons see earlier
attribute writes, as the source's object mutation does). -/
def processImg (imgRes : List ImgResource) (idx : Nat) (i : Node) (pos : Nat)
    (st : LcpState) : ImgOut × LcpState :=
  imgRes.foldl (processImgStep idx pos) ({ final := i, webps := [] }, st)

/-- The image loop of lines 315-365 over the whole image list. -/
def processImgsGo (imgRes : List ImgResource) (idx : Nat) (st : LcpState) :
    List (Node × Nat) → List ImgOut × LcpState
  | [] => ([], st)
  | ip :: rest =>
    let p1 := processImg imgRes idx ip.1 ip.2 st
    let p2 := processImgsGo imgRes (idx + 1) p1.2 rest
    (p1.1 :: p2.1, p2.2)

/-- Lines 367-383: give the candidate `fetchpriority="high"`, then mark every
image that is not (structurally, per `Tag.__ne__`) the candidate as
lazy-loading. -/
def finalizeImgsGo (candIdx : Nat) (candFinal : Node) (k : Nat) :
    List ImgOut → List ImgOut
  | [] => []
  | o :: os =>
    (if k == candIdx then { o with final := candFinal }
     else if o.final == candFinal then o
     else { o with final := o.final.setAttr "loading" "lazy" })
      :: finalizeImgsGo candIdx candFinal (k + 1) os

/-- Apply `fetchpriority`/`loading` to the processed images; also return the
candidate's final element (used for the preload hint of lines 371-378). -/
def finalizeImgs (outs : List ImgOut) (cand : Option Nat) :
    List ImgOut × Option Node :=
  match cand with
  | none => (outs.map (fun o => { o with final := o.final.setAttr "loading" "lazy" }), none)
  | some k =>
    match (outs.get? k).map (fun o => o.final.setAttr "fetchpriority" "high") with
    | none => (outs.map (fun o => { o with final := o.final.setAttr "loading" "lazy" }), none)
    | some candFinal => (finalizeImgsGo k candFinal 0 outs, some candFinal)

/-- Lines 344-348: the `source` element of a picture wrap. -/
def sourceNode (wp : String) : Node :=
  .elem "source" [("srcset", wp), ("type", "image/webp")] []

/-- Successive picture wraps nest: each later wrap extracts the image from
the previous picture and appends a fresh picture inside it. -/
def assemblePicture : List String → Node → Node
  | [], img => img
  | w :: ws, img => .elem "picture" [] [sourceNode w, assemblePicture ws img]

mutual
def rebuildNode (outs : List ImgOut) (idx : Nat) : Node → (List Node × List Node × Nat)
  | .text s => ([.text s], [], idx)
  | .elem t a c =>
    if isSrcImg (.elem t a c) then
      match rebuildForest outs (idx + 1) c with
      | (c', up, idx') =>
        let o := (outs.get? idx).getD { final := .elem t a c, webps := [] }
        let node := Node.elem t o.final.attrs (c' ++ up)
        if o.webps.isEmpty then ([node], [], idx')
        else ([], [assemblePicture o.webps node], idx')
    else
      match rebuildForest outs idx c with
      | (c', up, idx') => ([Node.elem t a (c' ++ up)], [], idx')
def rebuildForest (outs : List ImgOut) (idx : Nat) : List Node → (List Node × List Node × Nat)
  | [] => ([], [], idx)
  | n :: ns =>
    match rebuildNode outs idx n with
    | (keep, up, idx') =>
      match rebuildForest outs idx' ns with
      | (keeps, ups, idx'') => (keep ++ keeps, up ++ ups, idx'')
end

/-- Write the finalised images back into the tree: the `k`-th `src`-bearing
image (pre-order) becomes `outs[k]`, wrapped images move to the end of their
parent's children as the source's extract-and-append does. -/
def rebuildDoc (outs : List ImgOut) (doc : List Node) : List Node :=
  match rebuildForest outs 0 doc with
  | (keeps, ups, _) => keeps ++ ups

/-! ## The live tree seen by line 323

The position proxy is recomputed inside the loop, so image `k` sees the
tree AFTER the earlier iterations' mutations.  Every image inside the
previous siblings of image `k`'s parent precedes `k` in pre-order, hence
has been fully processed by the time `k`'s position is read: its attribute
writes are applied and its webp wraps inserted (a wrapped image moves to
the end of its parent's children; a wrapped sibling of the parent thereby
leaves the previous-sibling list entirely).  The scan state never reaches
the tree: the written node is identical in both branches of the area
comparison of lines 337-339, so one image's final element and webp wraps
are a function of the image and the resource list alone (`mutateImg`,
related to the scan's fold by `processImgStep_fst`). -/

/-- The tree mutations of one image's resource-loop iteration (lines
325-363) without the LCP bookkeeping: the `src`/`width`/`height` writes and
the recorded webp wraps. -/
def mutateImgStep (acc : ImgOut) (r : ImgResource) : ImgOut :=
  if r.element == acc.final then
    match r.local_path with
    | none => acc
    | some lp =>
      let cur := acc.final.setAttr "src" lp
      let next :=
        match r.width, r.height with
        | some w, some h => (cur.setAttr "width" (toString w)).setAttr "height" (toString h)
        | _, _ => cur
      let webps :=
        match r.webp_path with
        | some wp => acc.webps ++ [wp]
        | none => acc.webps
      { final := next, webps := webps }
  else acc

/-- One image's mutated element and webp wraps after its whole resource
loop. -/
def mutateImg (imgRes : List ImgResource) (i : Node) : ImgOut :=
  imgRes.foldl mutateImgStep { final := i, webps := [] }

mutual
/-- A fully processed subtree as the live tree shows it: the kept
replacement (empty when the node is a webp-wrapped image, which the
extract-and-append moves away) and the pictures appended at the parent's
end.  Resource matching starts from the node's pre-pass value, as the
source's comparison does at the image's own iteration. -/
def liveNode (imgRes : List ImgResource) : Node → (List Node × List Node)
  | .text s => ([.text s], [])
  | .elem t a c =>
    match liveForest imgRes c with
    | (c', up) =>
      if isSrcImg (.elem t a c) then
        let o := mutateImg imgRes (.elem t a c)
        let node := Node.elem t o.final.attrs (c' ++ up)
        if o.webps.isEmpty then ([node], []) else ([], [assemblePicture o.webps node])
      else ([Node.elem t a (c' ++ up)], [])
def liveForest (imgRes : List ImgResource) : List Node → (List Node × List Node)
  | [] => ([], [])
  | n :: ns =>
    match liveNode imgRes n, liveForest imgRes ns with
    | (keep, up), (keeps, ups) => (keep ++ keeps, up ++ ups)
end

mutual
/-- Line 323 per iteration: each image paired with
`len(str(parent.find_previous_siblings()))` read off the live tree — the
parent's previous siblings are carried in their fully processed
(`liveNode`) form, text siblings excluded as `find_previous_siblings`
returns only tags.  (`img` is a void element, so parsed HTML never nests
an image below an image; the walk still recurses into image children, with
the subtree handled in place, to stay total.) -/
def liveImgsNode (imgRes : List ImgResource) (parentPrev myPrev : List Node) :
    Node → List (Node × Nat)
  | .text _ => []
  | .elem t a c =>
    (if isSrcImg (.elem t a c) then [(Node.elem t a c, posLen parentPrev)] else [])
      ++ liveImgsGo imgRes myPrev [] c
def liveImgsGo (imgRes : List ImgResource) (parentPrev prevAcc : List Node) :
    List Node → List (Node × Nat)
  | [] => []
  | n :: ns =>
    liveImgsNode imgRes parentPrev prevAcc n ++
      liveImgsGo imgRes parentPrev
        (match n with
          | .elem t a c => (liveNode imgRes (.elem t a c)).1 ++ prevAcc
          | .text _ => prevAcc)
        ns
end

/-- Every `src`-bearing image of the document in document order (the static
`find_all` list), paired with its per-iteration live position proxy. -/
def liveImgInfos (imgRes : List ImgResource) (doc : List Node) : List (Node × Nat) :=
  liveImgsGo imgRes [] [] doc

/-- The preload hint of lines 374-377. -/
def preloadNode (href : String) : Node :=
  .elem "link" [("rel", "preload"), ("href", href), ("as", "image")] []

/-! ## Step 7 (lines 385-406): origin hints -/

/-- Scan for the `"://"` scheme separator. -/
def afterScheme : List Char → Option (List Char)
  | ':' :: '/' :: '/' :: rest => some rest
  | _ :: rest => afterScheme rest
  | [] => none

/-- `urlparse(u).netloc`: the authority between the scheme separator (or a
leading `//`) and the next `/`, `?` or `#`; empty for scheme-less urls. -/
def netloc (u : String) : String :=
  match afterScheme u.data with
  | some rest => ⟨rest.takeWhile (fun c => c != '/' && c != '?' && c != '#')⟩
  | none =>
    match u.data with
    | '/' :: '/' :: rest => ⟨rest.takeWhile (fun c => c != '/' && c != '?' && c != '#')⟩
    | _ => ""

/-- All resource urls in `self.resources` iteration order (css, js, images,
fonts). -/
def allUrls (σ : OptimizerState) : List String :=
  σ.resources_css.map (·.url) ++ σ.resources_js.map (·.url) ++
    σ.resources_images.map (·.url) ++ σ.resources_fonts.map (·.url)

def preconnectNode (d : String) : Node :=
  .elem "link" [("rel", "preconnect"), ("href", "https://" ++ d), ("crossorigin", "")] []

def dnsPrefetchNode (d : String) : Node :=
  .elem "link" [("rel", "dns-prefetch"), ("href", "https://" ++ d)] []

/-- Lines 396-406: for each domain insert a preconnect then a dns-prefetch
hint at the head's start.  The Python `set` iteration order is unspecified;
it is modelled as first-occurrence order. -/
def addHints (domains : List String) (doc : List Node) : List Node :=
  domains.foldl
    (fun dc d =>
      editFirst (·.tagIs "head") (insertChildAt 0 (dnsPrefetchNode d))
        (editFirst (·.tagIs "head") (insertChildAt 0 (preconnectNode d)) dc))
    doc

/-! ## Step 8 (lines 408-412): cache-control meta -/

def cacheMeta : Node :=
  .elem "meta" [("http-equiv", "Cache-Control"), ("content", "max-age=31536000")] []

/-- The log lines appended at lines 418-422. -/
def optimizeHtmlMessages : List String :=
  ["Inlined critical CSS in the head",
   "Deferred loading of non-critical CSS",
   "Added resource hints (preconnect, dns-prefetch)",
   "Optimized LCP image loading with fetchpriority",
   "Added cache control headers"]

/-! ## `_optimize_html` assembled (lines 237-422)

Line 248 copies the tree (`BeautifulSoup(str(self.dom), 'html.parser')`);
re-parsing the serialisation of a tree yields a structurally identical tree,
so the copy is the identity on tree values and every subsequent step reads
only the copy.  The function returns the updated optimizer state together
with the optimized document (whose serialisation line 415 writes to
`index.html`); `none` models the uncaught `KeyError` of line 290. -/

/-- Stages 1-4: head creation, critical-CSS inlining, stylesheet-link
rewriting and script deferral over the copied tree. -/
def stageScripts (σ : OptimizerState) : Option (List Node) :=
  (linksForest σ.resources_css (inlineCritical σ.critical_css (ensureHead σ.dom))).map
    (scriptsForest σ.resources_js)

/-- The image list (with per-iteration live position proxies) that the
step-6 loop iterates. -/
def transformImgInfos (σ : OptimizerState) : List (Node × Nat) :=
  match stageScripts σ with
  | some d4 => liveImgInfos σ.resources_images d4
  | none => []

/-- The index of the LCP candidate chosen by the step-6 scan. -/
def lcpIndexOf (σ : OptimizerState) : Option Nat :=
  (processImgsGo σ.resources_images 0 (LcpState.mk none 0) (transformImgInfos σ)).2.cand

/-- The LCP candidate as a document element (the image the chosen index
denotes, before its attribute mutations). -/
def lcpCandidateOf (σ : OptimizerState) : Option Node :=
  (lcpIndexOf σ).bind (fun k => ((transformImgInfos σ).get? k).map Prod.fst)

def optimize_html (σ : OptimizerState) : Option (OptimizerState × List Node) :=
  match stageScripts σ with
  | none => none
  | some d4 =>
    let infos := liveImgInfos σ.resources_images d4
    let (outs, st) := processImgsGo σ.resources_images 0 (LcpState.mk none 0) infos
    let (outs2, candFinal) := finalizeImgs outs st.cand
    let d5 := rebuildDoc outs2 d4
    let d6 :=
      match candFinal.bind (fun c => c.getAttr "src") with
      | some s =>
        if s != "" then editFirst (·.tagIs "head") (insertChildAt 0 (preloadNode s)) d5
        else d5
      | none => d5
    let domains := (((allUrls σ).map netloc).filter (· != "")).foldl setAdd []
    let d7 := addHints domains d6
    let d8 := editFirst (·.tagIs "head") (appendChild cacheMeta) d7
    some ({ σ with applied_optimizations := σ.applied_optimizations ++ optimizeHtmlMessages },
      d8)

/-! ## Derived definitions used in the claim statements -/

/-- The children of a node. -/
def Node.children : Node → List Node
  | .elem _ _ c => c
  | .text _ => []

/-- Does some signature match this selector (the matcher's per-selector
test)? -/
def sigMatches (element_selectors : List String) (css_selector : String) : Bool :=
  element_selectors.any (fun e => pyIn e (baseSelector css_selector))

/-- The trimmed selector groups of the scan, in order. -/
def parsedGroups (css : String) : List String :=
  (cssFindall css.data).map (fun m => pyStrip ⟨m.1⟩)

/-- The comma-split, trimmed members of a selector group. -/
def groupParts (g : String) : List String := (pySplit ',' g).map pyStrip

/-- The rules `generate_critical_css` emits: trimmed group and raw body of
every scanned rule whose group does not start with `@` and has a part in the
critical set. -/
def emittedRules (critical_selectors : List String)
    (css_contents : List (String × String)) : List (String × String) :=
  css_contents.flatMap (fun p =>
    (cssFindall p.2.data).filterMap (fun m =>
      let selector := pyStrip ⟨m.1⟩
      if !pyStartsWith '@' selector
          && (groupParts selector).any (fun s => critical_selectors.contains s) then
        some (selector, ⟨m.2⟩)
      else none))

/-- Do all sized images of the document carry integer `width`/`height`
values (so that line 126's `int()` calls succeed)? -/
def sizedParseOk (doc : List Node) : Bool :=
  (sizedImgs doc).all (fun i => (areaKey i).isSome)

/-- The stylesheet links of a document, in document order. -/
def sheetLinks (doc : List Node) : List Node :=
  (forestElems doc).filter isStylesheetLink

/-- Does every stylesheet link of the document carry an `href` (so that line
290's `link['href']` cannot raise)? -/
def sheetLinksOk (doc : List Node) : Bool :=
  (sheetLinks doc).all (·.hasAttr "href")

/-- The `src`-bearing images of a document, in document order. -/
def srcImgs (doc : List Node) : List Node := (forestElems doc).filter isSrcImg

/-- The first maximum of an integer list, as (index, value). -/
def firstMaxIdx : List Int → Option (Nat × Int)
  | [] => none
  | a :: rest =>
    match firstMaxIdx rest with
    | none => some (0, a)
    | some (k, b) => if a ≥ b then some (0, a) else some (k + 1, b)

/-- A string free of braces (hypothesis language for the at-rule shape
claim). -/
def noBraces (s : String) : Bool := s.data.all (fun c => c != '{' && c != '}')

/-- Every image of the document is childless (`img` is a void element, so
parsed HTML always satisfies this; the hypothesis rules out trees no parser
produces). -/
def imgsLeaf (doc : List Node) : Bool :=
  (forestElems doc).all (fun n => !(n.tagIs "img") || n.children.isEmpty)

/-- Every image of the document declares `src` and integer `width`/`height`
attributes. -/
def imgsUniform (doc : List Node) : Bool :=
  (forestElems doc).all (fun n =>
    !(n.tagIs "img") || (n.hasAttr "src" && isSizedImg n && (areaKey n).isSome))

/-- The per-image hypothesis of the corrected LCP-agreement claim: the image
sits above the position gate, exactly one downloaded resource structurally
matches it, that resource's recorded dimensions and local path agree with
the image's declared attributes (so the source's attribute writes are
no-ops), it carries no WebP copy (so no picture wrap mutates the tree and
the per-iteration position recomputation of line 323 keeps reading the
unmutated tree), and the area is positive (so it can beat the scan's
initial 0). -/
def goodImg (imgRes : List ImgResource) (i : Node) (pos : Nat) : Bool :=
  decide (pos < viewportHeight) &&
  match imgRes.filter (fun r => r.element == i) with
  | [r] =>
    (match r.local_path with
     | some lp => i.getAttr "src" == some lp
     | none => false) &&
    r.webp_path == none &&
    (match r.width, r.height with
     | some w, some h =>
       i.getAttr "width" == some (toString w) && i.getAttr "height" == some (toString h)
         && pyInt (toString w) == some w && pyInt (toString h) == some h
         && decide (0 < w * h)
     | _, _ => false)
  | _ => false

/-- Concatenation of the renderings of a rule list. -/
def renderAll : List (String × String) → String
  | [] => ""
  | r :: rs => renderRule r.1 r.2 ++ renderAll rs

/-- The part of the above-fold selection before the dominant image: headers
and navs, hero/banner elements, first three section-classed containers. -/
def aboveFoldBase (doc : List Node) : List Node :=
  (forestElems doc).filter isHeaderNav ++ (forestElems doc).filter isHeroBanner
    ++ ((forestElems doc).filter isSectionLike).take 3

/-! ## Concrete fixtures used by counterexamples and witnesses -/

/-- A nav that is also hero-classed: matched by two heuristic steps. -/
def navHero : Node := .elem "nav" [("class", "hero")] []

/-- A section-classed div. -/
def sectionDiv : Node := .elem "div" [("class", "my-section")] []

/-- A 100 by 100 image. -/
def imgSquare : Node := .elem "img" [("src", "a.png"), ("width", "100"), ("height", "100")] []

/-- A 500 by 50 image (larger area than `imgSquare`). -/
def imgWide : Node := .elem "img" [("src", "b.png"), ("width", "500"), ("height", "50")] []

/-- An image whose size attributes do not parse as integers. -/
def imgBad : Node := .elem "img" [("width", "abc"), ("height", "10")] []

/-- A small image with integer size attributes. -/
def imgSmall : Node := .elem "img" [("width", "3"), ("height", "4")] []

/-- An optimizer state whose document has one sized image but no downloaded
image resources. -/
def stateNoRes : OptimizerState :=
  ⟨[.elem "body" [] [imgSquare]], [], [], [], [], none, []⟩

/-- An optimizer state whose document carries a stylesheet link without an
`href`. -/
def stateBadLink : OptimizerState :=
  ⟨[.elem "head" [] [.elem "link" [("rel", "stylesheet")] []]], [], [], [], [], none, []⟩

/-- A small complete optimizer state (stylesheet link, script, critical
CSS). -/
def stateSmall : OptimizerState :=
  ⟨[.elem "html" [] [.elem "head" [] [],
      .elem "body" [] [.elem "link" [("rel", "stylesheet"), ("href", "s.css")] [],
        .elem "script" [("src", "x.js")] []]]],
    [], [], [], [], some "X", ["a"]⟩

/-- Downloaded resource matching `imgSquare` with agreeing dimensions. -/
def imgResSquare : ImgResource :=
  ⟨"http://e.com/a.png", imgSquare, some "a.png", some 100, some 100, none⟩

/-- Downloaded resource matching `imgWide` with agreeing dimensions. -/
def imgResWide : ImgResource :=
  ⟨"http://e.com/b.png", imgWide, some "b.png", some 500, some 50, none⟩

/-- An optimizer state with two sized, src-bearing images whose resources
agree with their declared dimensions. -/
def stateMatch : OptimizerState :=
  ⟨[.elem "body" [] [imgSquare, imgWide]], [], [], [imgResSquare, imgResWide], [], none, []⟩

/-- The tree `stateMatch`'s document after the head/critical/link/script
stages (no head or html existed, so a fresh `html` wrapping a head is
appended). -/
def stateMatchD4 : List Node :=
  [.elem "body" [] [imgSquare, imgWide], .elem "html" [] [headNode]]

/-- A resource matching `imgSquare` that carries a WebP copy, so processing
it wraps the image in a `picture` element. -/
def imgResWebp : ImgResource :=
  ⟨"http://e.com/a.png", imgSquare, some "a.png", some 100, some 100, some "a.webp"⟩

/-- Two sibling containers, each holding one image: the second image's
parent has the first container as its previous sibling. -/
def wrapDoc : List Node :=
  [.elem "div" [] [imgSquare], .elem "div" [] [imgWide]]

/-- The LCP scan specified directly: walk the area list, keeping the index
of the first strict maximum against the running largest area. -/
def scanSpec (idx : Nat) (st : LcpState) : List Int → LcpState
  | [] => st
  | a :: rest => scanSpec (idx + 1) (if a > st.largest then LcpState.mk (some idx) a else st) rest

/-- Does an attribute list carry `href`? -/
def attrsHasHref (a : List (String × String)) : Bool :=
  (a.find? (fun p => p.1 == "href")).isSome

/-- The attribute lists of a document's stylesheet links, in document
order. -/
def sheetAttrsList (t : List Node) : List (List (String × String)) :=
  (sheetLinks t).map Node.attrs

/-! # Theorems -/

/-! ## Generic list/fold lemmas -/

theorem foldl_append_filter {α : Type} (p : α → Bool) :
    ∀ (L : List α) (acc : List α),
      L.foldl (fun m s => if p s then m ++ [s] else m) acc = acc ++ L.filter p := by
  intro L
  induction L with
  | nil => intro acc; simp
  | cons x xs ih =>
    intro acc
    by_cases h : p x <;> simp [List.foldl_cons, h, ih, List.filter_cons]

/-! ## The CSS scan: fuel irrelevance and the clean recurrence -/

theorem cssFindallFuel_nil (g : Nat) : cssFindallFuel g [] = [] := by
  cases g <;> rfl

theorem cssFindallFuel_congr :
    ∀ (f : Nat) (cs : List Char) (g : Nat), cs.length ≤ f → cs.length ≤ g →
      cssFindallFuel f cs = cssFindallFuel g cs := by
  intro f
  induction f with
  | zero =>
    intro cs g hf _
    have hcs : cs = [] := List.length_eq_zero.mp (Nat.le_zero.mp hf)
    subst hcs
    rw [cssFindallFuel_nil, cssFindallFuel_nil]
  | succ f ih =>
    intro cs g hf hg
    match g, hg with
    | 0, hg =>
      have hcs : cs = [] := List.length_eq_zero.mp (Nat.le_zero.mp hg)
      subst hcs
      rw [cssFindallFuel_nil, cssFindallFuel_nil]
    | g' + 1, hg =>
      rcases h1 : (cs.dropWhile (· == '{')).dropWhile (· != '{') with _ | ⟨x, afterBrace⟩
      · simp [cssFindallFuel, h1]
      · rcases h2 : afterBrace.dropWhile (· != '}') with _ | ⟨y, tail⟩
        · simp [cssFindallFuel, h1, h2]
        · have a1 : ((cs.dropWhile (· == '{')).dropWhile (· != '{')).length ≤ cs.length :=
            le_trans (List.dropWhile_sublist _).length_le (List.dropWhile_sublist _).length_le
          have a2 : (afterBrace.dropWhile (· != '}')).length ≤ afterBrace.length :=
            (List.dropWhile_sublist _).length_le
          rw [h1] at a1
          rw [h2] at a2
          simp only [List.length_cons] at a1 a2
          have ht : tail.length ≤ f := by omega
          have ht2 : tail.length ≤ g' := by omega
          simp [cssFindallFuel, h1, h2, ih tail g' ht ht2]

/-- The recurrence the fuelled definition implements. -/
theorem cssFindall_eq (cs : List Char) :
    cssFindall cs =
      match (cs.dropWhile (· == '{')).dropWhile (· != '{') with
      | [] => []
      | _ :: afterBrace =>
        match afterBrace.dropWhile (· != '}') with
        | [] => []
        | _ :: tail =>
          ((cs.dropWhile (· == '{')).takeWhile (· != '{'),
            afterBrace.takeWhile (· != '}')) :: cssFindall tail := by
  rcases hcs : cs with _ | ⟨c, cs'⟩
  · rfl
  · show cssFindallFuel (cs'.length + 1) (c :: cs') = _
    rcases h1 : ((c :: cs').dropWhile (· == '{')).dropWhile (· != '{') with _ | ⟨x, afterBrace⟩
    · simp [cssFindallFuel, h1]
    · rcases h2 : afterBrace.dropWhile (· != '}') with _ | ⟨y, tail⟩
      · simp [cssFindallFuel, h1, h2]
      · have a1 : (((c :: cs').dropWhile (· == '{')).dropWhile (· != '{')).length ≤
            (c :: cs').length :=
          le_trans (List.dropWhile_sublist _).length_le (List.dropWhile_sublist _).length_le
        have a2 : (afterBrace.dropWhile (· != '}')).length ≤ afterBrace.length :=
          (List.dropWhile_sublist _).length_le
        rw [h1] at a1
        rw [h2] at a2
        simp only [List.length_cons] at a1 a2
        have ht : tail.length ≤ cs'.length := by omega
        have hrec : cssFindallFuel cs'.length tail = cssFindall tail :=
          cssFindallFuel_congr cs'.length tail tail.length ht le_rfl
        simp [cssFindallFuel, h1, h2, hrec]

/-! ## The parser as a filter over the scanned groups -/

theorem parse_css_aux :
    ∀ (ms : List (List Char × List Char)) (acc : List String),
      ms.foldl
        (fun selectors m =>
          let selector := pyStrip ⟨m.1⟩
          if pyStartsWith '@' selector then selectors
          else selectors ++ (pySplit ',' selector).map pyStrip)
        acc
      = acc ++ ((ms.map (fun m => pyStrip ⟨m.1⟩)).filter
          (fun g => !pyStartsWith '@' g)).flatMap groupParts := by
  intro ms
  induction ms with
  | nil => intro acc; simp
  | cons m ms ih =>
    intro acc
    by_cases h : pyStartsWith '@' (pyStrip ⟨m.1⟩) <;>
      simp [List.foldl_cons, h, ih, groupParts]

/-- `parse_css` returns exactly the trimmed comma-parts of the scanned
groups that do not start with `@`. -/
theorem parse_css_eq (css : String) :
    parse_css css
      = ((parsedGroups css).filter (fun g => !pyStartsWith '@' g)).flatMap groupParts := by
  simpa [parse_css, parsedGroups] using parse_css_aux (cssFindall css.data) []

/-! ## The composer as a render over the emitted rules -/

theorem renderAll_append (a b : List (String × String)) :
    renderAll (a ++ b) = renderAll a ++ renderAll b := by
  induction a with
  | nil => simp [renderAll, String.empty_append]
  | cons r rs ih => simp [renderAll, ih, String.append_assoc]

theorem gen_inner_aux (sels : List String) :
    ∀ (ms : List (List Char × List Char)) (acc : String),
      ms.foldl
        (fun acc2 m =>
          let selector := pyStrip ⟨m.1⟩
          if pyStartsWith '@' selector then acc2
          else
            let selector_parts := (pySplit ',' selector).map pyStrip
            if selector_parts.any (fun s => sels.contains s) then
              acc2 ++ renderRule selector ⟨m.2⟩
            else acc2)
        acc
      = acc ++ renderAll (ms.filterMap (fun m =>
          let selector := pyStrip ⟨m.1⟩
          if !pyStartsWith '@' selector
              && (groupParts selector).any (fun s => sels.contains s) then
            some (selector, (⟨m.2⟩ : String))
          else none)) := by
  intro ms
  induction ms with
  | nil => intro acc; simp [renderAll, String.append_empty]
  | cons m ms ih =>
    intro acc
    rw [List.foldl_cons, ih]
    by_cases h1 : pyStartsWith '@' (pyStrip ⟨m.1⟩)
    · simp [h1, List.filterMap_cons]
    · by_cases h2 : ∃ x ∈ pySplit ',' (pyStrip ⟨m.1⟩), pyStrip x ∈ sels
      · simp only [List.filterMap_cons]
        simp [h1, h2, groupParts, renderAll, String.append_assoc]
      · simp only [List.filterMap_cons]
        simp [h1, h2, groupParts]

theorem gen_outer_aux (sels : List String) :
    ∀ (ps : List (String × String)) (start : String),
      ps.foldl
        (fun acc p =>
          (cssFindall p.2.data).foldl
            (fun acc2 m =>
              let selector := pyStrip ⟨m.1⟩
              if pyStartsWith '@' selector then acc2
              else
                let selector_parts := (pySplit ',' selector).map pyStrip
                if selector_parts.any (fun s => sels.contains s) then
                  acc2 ++ renderRule selector ⟨m.2⟩
                else acc2)
            acc)
        start
      = start ++ renderAll (emittedRules sels ps) := by
  intro ps
  induction ps with
  | nil => intro start; simp [emittedRules, renderAll, String.append_empty]
  | cons p ps ih =>
    intro start
    rw [List.foldl_cons, gen_inner_aux sels (cssFindall p.2.data) start, ih,
      String.append_assoc, ← renderAll_append]
    congr 2

theorem generate_eq (sels : List String) (conts : List (String × String)) :
    generate_critical_css sels conts
      = cssHeader ++ cssPreamble ++ renderAll (emittedRules sels conts) :=
  gen_outer_aux sels conts (cssHeader ++ cssPreamble)

theorem emittedRules_at_free (sels : List String) (conts : List (String × String)) :
    ∀ r ∈ emittedRules sels conts, pyStartsWith '@' r.1 = false := by
  intro r hr
  simp only [emittedRules, List.mem_flatMap, List.mem_filterMap] at hr
  rcases hr with ⟨p, -, m, -, hm⟩
  split at hm
  · rename_i hc
    cases hm
    show pyStartsWith '@' (pyStrip ⟨m.1⟩) = false
    cases hbool : pyStartsWith '@' (pyStrip ⟨m.1⟩)
    · rfl
    · rw [hbool] at hc
      simp at hc
  · cases hm

/-- Claim C2 counterexample: the parser returns the selector `@x`, which
begins with `@`, for the stylesheet `div,@x{color:red}` — the `@` check
only inspects the whole selector group, not its comma-parts. -/
theorem C2_counterexample :
    "@x" ∈ parse_css "div,@x\x7bcolor:red\x7d" ∧ pyStartsWith '@' "@x" = true := by
  constructor
  · decide
  · decide

/-- Claim C2 amended: a rule whose trimmed selector GROUP begins with `@`
contributes nothing to the parse (every parsed selector is a comma-part of
some group not starting with `@` — though that part itself may start with
`@`), and the composer emits exactly the rules whose group does not start
with `@` and meets the critical set, so no `@`-led group is ever emitted. -/
theorem C2_at_rule_exclusion_amended :
    (∀ (css : String) (s : String), s ∈ parse_css css →
        ∃ g ∈ parsedGroups css, pyStartsWith '@' g = false ∧ s ∈ groupParts g) ∧
    (∀ (sels : List String) (conts : List (String × String)),
        generate_critical_css sels conts
            = cssHeader ++ cssPreamble ++ renderAll (emittedRules sels conts) ∧
          ∀ r ∈ emittedRules sels conts, pyStartsWith '@' r.1 = false) := by
  constructor
  · intro css s hs
    rw [parse_css_eq] at hs
    rcases List.mem_flatMap.mp hs with ⟨g, hg, hgs⟩
    rcases List.mem_filter.mp hg with ⟨hg1, hg2⟩
    exact ⟨g, hg1, by simpa using hg2, hgs⟩
  · intro sels conts
    exact ⟨generate_eq sels conts, emittedRules_at_free sels conts⟩

/-- Witness for the amended C2 at a concrete stylesheet and selector. -/
theorem C2_at_rule_exclusion_amended_witness :
    (".a" ∈ parse_css "div,.a\x7bx:1\x7d") ∧
      ∃ g ∈ parsedGroups "div,.a\x7bx:1\x7d",
        pyStartsWith '@' g = false ∧ ".a" ∈ groupParts g :=
  ⟨by decide, C2_at_rule_exclusion_amended.1 "div,.a\x7bx:1\x7d" ".a" (by decide)⟩

/-- Claim C8: the composed stylesheet always contains the fixed box-sizing
preamble verbatim, and with no matched selectors it is exactly the header
comment followed by the preamble. -/
theorem C8_preamble_always (sels : List String) (conts : List (String × String)) :
    cssPreamble.data <:+: (generate_critical_css sels conts).data ∧
      generate_critical_css [] conts = cssHeader ++ cssPreamble := by
  constructor
  · rw [generate_eq sels conts, String.append_assoc]
    exact ⟨cssHeader.data, (renderAll (emittedRules sels conts)).data,
      by simp [String.data_append]⟩
  · have hnil : emittedRules [] conts = [] := by
      simp [emittedRules]
    rw [generate_eq [] conts, hnil]
    show _ ++ renderAll [] = _
    simp [renderAll, String.append_empty]

/-! ## The matcher as a filter -/

theorem match_selectors_eq_filter (S L : List String) :
    match_selectors S L = L.filter (sigMatches S) := by
  have h := foldl_append_filter (sigMatches S) L []
  simpa [match_selectors, sigMatches] using h

theorem mem_match_selectors (S L : List String) (s : String) :
    s ∈ match_selectors S L ↔ s ∈ L ∧ ∃ e ∈ S, pyIn e (baseSelector s) = true := by
  rw [match_selectors_eq_filter, List.mem_filter]
  constructor
  · rintro ⟨hL, hm⟩
    exact ⟨hL, by simpa [sigMatches, List.any_eq_true] using hm⟩
  · rintro ⟨hL, hm⟩
    exact ⟨hL, by simpa [sigMatches, List.any_eq_true] using hm⟩

/-- Claim C1: for every signature set and selector list, the matcher returns
exactly the original selector strings such that some signature is a
substring of the selector's pseudo-stripped base; membership is an
existential over the signature set, hence independent of scan order. -/
theorem C1_matcher_characterization (S L : List String) (s : String) :
    s ∈ match_selectors S L ↔ s ∈ L ∧ ∃ e ∈ S, pyIn e (baseSelector s) = true :=
  mem_match_selectors S L s

/-- Claim C9: growing the signature set can only grow the matched-selector
set. -/
theorem C9_matcher_monotone (S S' L : List String) (hsub : ∀ x ∈ S, x ∈ S')
    (s : String) (hs : s ∈ match_selectors S L) : s ∈ match_selectors S' L := by
  rcases (mem_match_selectors S L s).mp hs with ⟨hL, e, heS, hin⟩
  exact (mem_match_selectors S' L s).mpr ⟨hL, e, hsub e heS, hin⟩

/-- Witness for C9 at a concrete signature set, superset and selector
list. -/
theorem C9_matcher_monotone_witness :
    (∀ x ∈ (["a"] : List String), x ∈ (["a", ".b"] : List String)) ∧
      "a:hover" ∈ match_selectors ["a", ".b"] ["a:hover", ".c"] :=
  ⟨by decide, C9_matcher_monotone ["a"] ["a", ".b"] ["a:hover", ".c"] (by decide)
    "a:hover" (by decide)⟩

/-! ## Sized images, sort keys, and the stable descending sort -/

theorem keyedImgs_isSome (l : List Node) :
    (keyedImgs l).isSome ↔ ∀ i ∈ l, (areaKey i).isSome := by
  induction l with
  | nil => simp [keyedImgs]
  | cons i is ih =>
    cases ha : areaKey i with
    | none => simp [keyedImgs, ha]
    | some a =>
      cases hk : keyedImgs is with
      | none =>
        rw [hk] at ih
        simp only [keyedImgs, ha, hk]
        simp [← ih, ha]
      | some t =>
        rw [hk] at ih
        simp only [keyedImgs, ha, hk]
        simp [← ih, ha]

theorem keyedImgs_some :
    ∀ (l : List Node) (k : List (Node × Int)), keyedImgs l = some k →
      k.map Prod.fst = l ∧ ∀ p ∈ k, areaKey p.1 = some p.2 := by
  intro l
  induction l with
  | nil =>
    intro k hk
    cases hk
    simp
  | cons i is ih =>
    intro k hk
    cases ha : areaKey i with
    | none =>
      simp only [keyedImgs, ha] at hk
      cases hk
    | some a =>
      cases hks : keyedImgs is with
      | none =>
        simp only [keyedImgs, ha, hks] at hk
        cases hk
      | some t =>
        simp only [keyedImgs, ha, hks] at hk
        cases hk
        obtain ⟨h1, h2⟩ := ih t hks
        refine ⟨by simp [h1], ?_⟩
        intro p hp
        rcases List.mem_cons.mp hp with hp | hp
        · subst hp; exact ha
        · exact h2 p hp

theorem insertDesc_head (p : Node × Int) (s : List (Node × Int)) :
    (insertDesc p s).head? = some (match s.head? with
      | none => p
      | some q => if p.2 ≥ q.2 then p else q) := by
  cases s with
  | nil => rfl
  | cons q qs => by_cases h : p.2 ≥ q.2 <;> simp [insertDesc, h]

theorem firstMax_eq_none (l : List (Node × Int)) : firstMax l = none ↔ l = [] := by
  cases l with
  | nil => simp [firstMax]
  | cons x xs =>
    cases hf : firstMax xs with
    | none => simp [firstMax, hf]
    | some q => by_cases h : x.2 ≥ q.2 <;> simp [firstMax, hf, h]

theorem sortDesc_head (l : List (Node × Int)) : (sortDesc l).head? = firstMax l := by
  induction l with
  | nil => rfl
  | cons p ps ih =>
    rw [show sortDesc (p :: ps) = insertDesc p (sortDesc ps) from rfl, insertDesc_head, ih]
    cases hf : firstMax ps with
    | none => simp [firstMax, hf]
    | some q => by_cases h : p.2 ≥ q.2 <;> simp [firstMax, hf, h]

theorem firstMax_spec :
    ∀ (l : List (Node × Int)) (p : Node × Int), firstMax l = some p →
      (∀ q ∈ l, q.2 ≤ p.2) ∧ ∃ pre post, l = pre ++ p :: post ∧ ∀ q ∈ pre, q.2 < p.2 := by
  intro l
  induction l with
  | nil => intro p hp; cases hp
  | cons x xs ih =>
    intro p hp
    cases hf : firstMax xs with
    | none =>
      have hxs : xs = [] := (firstMax_eq_none xs).mp hf
      subst hxs
      simp only [firstMax] at hp
      cases hp
      exact ⟨by simp, [], [], rfl, by simp⟩
    | some q =>
      have hred : firstMax (x :: xs) = if x.2 ≥ q.2 then some x else some q := by
        rw [show firstMax (x :: xs) = (match firstMax xs with
              | none => some x
              | some q => if x.2 ≥ q.2 then some x else some q) from rfl, hf]
      rw [hred] at hp
      obtain ⟨hmax, pre, post, heq, hpre⟩ := ih q hf
      by_cases h : x.2 ≥ q.2
      · rw [if_pos h] at hp
        cases hp
        refine ⟨?_, [], xs, rfl, by simp⟩
        intro r hr
        rcases List.mem_cons.mp hr with hr | hr
        · subst hr; exact le_refl _
        · exact le_trans (hmax r hr) h
      · rw [if_neg h] at hp
        cases hp
        have hxq : x.2 < p.2 := lt_of_not_ge h
        refine ⟨?_, x :: pre, post, by rw [heq]; rfl, ?_⟩
        · intro r hr
          rcases List.mem_cons.mp hr with hr | hr
          · subst hr; exact le_of_lt hxq
          · exact hmax r hr
        · intro r hr
          rcases List.mem_cons.mp hr with hr | hr
          · subst hr; exact hxq
          · exact hpre r hr

/-! ## Claims C6 and C7: the above-fold heuristic -/

theorem dominantImage_eq (doc : List Node) (k : List (Node × Int))
    (hk : keyedImgs (sizedImgs doc) = some k) :
    dominantImage doc = (firstMax k).map Prod.fst := by
  unfold dominantImage
  rw [hk]

theorem find_above_fold_eq (doc : List Node) (k : List (Node × Int))
    (hk : keyedImgs (sizedImgs doc) = some k) :
    find_above_fold_elements doc
      = some (aboveFoldBase doc ++ ((firstMax k).map Prod.fst).toList) := by
  unfold find_above_fold_elements
  rw [hk, ← sortDesc_head]
  rfl

/-- Claim C6 counterexample: the heuristic performs no deduplication — a nav
with a hero class is returned twice (once by the header/nav step, once by
the hero/banner step). -/
theorem C6_counterexample :
    find_above_fold_elements [navHero] = some [navHero, navHero] ∧
      ¬ ([navHero, navHero] : List Node).Nodup := by
  exact ⟨by decide, by decide⟩

/-- Claim C6 amended: the above-fold selection is, in order, all header/nav
elements, all hero/banner-classed elements, the first three section-classed
sections/divs, then the dominant sized image — with duplicates KEPT, an
element matched by several steps appearing once per step. -/
theorem C6_above_fold_order_amended (doc : List Node) (l : List Node)
    (h : find_above_fold_elements doc = some l) :
    l = aboveFoldBase doc ++ (dominantImage doc).toList := by
  cases hk : keyedImgs (sizedImgs doc) with
  | none =>
    unfold find_above_fold_elements at h
    rw [hk] at h
    cases h
  | some k =>
    rw [find_above_fold_eq doc k hk] at h
    cases h
    rw [dominantImage_eq doc k hk]

/-- Witness for C6 at a document exercising every heuristic step. -/
theorem C6_above_fold_order_amended_witness :
    find_above_fold_elements [navHero, sectionDiv, imgSquare]
        = some [navHero, navHero, sectionDiv, imgSquare] ∧
      [navHero, navHero, sectionDiv, imgSquare]
        = aboveFoldBase [navHero, sectionDiv, imgSquare]
          ++ (dominantImage [navHero, sectionDiv, imgSquare]).toList :=
  ⟨by decide,
    C6_above_fold_order_amended [navHero, sectionDiv, imgSquare]
      [navHero, navHero, sectionDiv, imgSquare] (by decide)⟩

/-- Claim C7 counterexample: with one image whose size attributes are not
integers and one image declaring integer sizes, the code raises a
`ValueError` (returns nothing) instead of appending the integer-sized image
as dominant candidate. -/
theorem C7_counterexample :
    find_above_fold_elements [imgBad, imgSmall] = none ∧
      imgSmall ∈ sizedImgs [imgBad, imgSmall] ∧ areaKey imgSmall = some 12 := by
  exact ⟨by decide, by decide, by decide⟩

/-- Claim C7 amended: provided every image declaring both `width` and
`height` parses as integers, the element appended as dominant/LCP candidate
is exactly the first sized image of maximal declared area (images lacking
either attribute are excluded, and nothing is appended when no sized image
exists). -/
theorem C7_dominant_image_amended (doc : List Node) (h : sizedParseOk doc = true) :
    find_above_fold_elements doc = some (aboveFoldBase doc ++ (dominantImage doc).toList) ∧
      (dominantImage doc = none ↔ sizedImgs doc = []) ∧
      ∀ n, dominantImage doc = some n →
        ∃ a pre post,
          areaKey n = some a ∧
          sizedImgs doc = pre ++ n :: post ∧
          (∀ m ∈ sizedImgs doc, ∀ b, areaKey m = some b → b ≤ a) ∧
          (∀ m ∈ pre, ∀ b, areaKey m = some b → b < a) := by
  have hall : ∀ i ∈ sizedImgs doc, (areaKey i).isSome := by
    intro i hi
    simpa using List.all_eq_true.mp h i hi
  obtain ⟨k, hk⟩ := Option.isSome_iff_exists.mp ((keyedImgs_isSome _).mpr hall)
  obtain ⟨hmap, hkeys⟩ := keyedImgs_some _ k hk
  refine ⟨?_, ?_, ?_⟩
  · rw [find_above_fold_eq doc k hk, dominantImage_eq doc k hk]
  · rw [dominantImage_eq doc k hk]
    cases hf : firstMax k with
    | none =>
      have hke : k = [] := (firstMax_eq_none k).mp hf
      subst hke
      have hs : sizedImgs doc = [] := by simpa using hmap.symm
      simp [hs]
    | some p =>
      rcases k with _ | ⟨x, xs⟩
      · cases hf
      · rw [← hmap]
        simp
  · intro n hn
    rw [dominantImage_eq doc k hk] at hn
    cases hf : firstMax k with
    | none => rw [hf] at hn; cases hn
    | some p =>
      rw [hf] at hn
      simp at hn
      subst hn
      obtain ⟨hmax, pre, post, heq, hpre⟩ := firstMax_spec k p hf
      refine ⟨p.2, pre.map Prod.fst, post.map Prod.fst, hkeys p ?_, ?_, ?_, ?_⟩
      · rw [heq]; exact List.mem_append.mpr (Or.inr (List.mem_cons_self _ _))
      · rw [← hmap, heq]; simp
      · intro m hm b hb
        rw [← hmap] at hm
        obtain ⟨q, hq, hqm⟩ := List.mem_map.mp hm
        have := hkeys q hq
        rw [hqm] at this
        rw [this] at hb
        cases hb
        exact hmax q hq
      · intro m hm b hb
        obtain ⟨q, hq, hqm⟩ := List.mem_map.mp hm
        have hqk : q ∈ k := by
          rw [heq]; exact List.mem_append.mpr (Or.inl hq)
        have := hkeys q hqk
        rw [hqm] at this
        rw [this] at hb
        cases hb
        exact hpre q hq

/-- Witness for C7 at the spec's two-image scenario (areas 10000 and
25000). -/
theorem C7_dominant_image_amended_witness :
    sizedParseOk [.elem "body" [] [imgSquare, imgWide]] = true ∧
      dominantImage [.elem "body" [] [imgSquare, imgWide]] = some imgWide ∧
      (find_above_fold_elements [.elem "body" [] [imgSquare, imgWide]]
          = some (aboveFoldBase [.elem "body" [] [imgSquare, imgWide]]
            ++ (dominantImage [.elem "body" [] [imgSquare, imgWide]]).toList)) :=
  ⟨by decide, by decide,
    (C7_dominant_image_amended [.elem "body" [] [imgSquare, imgWide]] (by decide)).1⟩

/-! ## Claim C4: the transform is non-destructive -/

/-- Claim C4: `_optimize_html` works on a copy — on success the optimizer
state keeps its document and resources unchanged; only the optimization log
grows (by the five fixed messages), and the rewritten tree is returned
separately. -/
theorem C4_transform_frame (σ : OptimizerState) (out : OptimizerState × List Node)
    (h : optimize_html σ = some out) :
    out.1.dom = σ.dom ∧ out.1.resources_css = σ.resources_css ∧
      out.1.resources_js = σ.resources_js ∧ out.1.resources_images = σ.resources_images ∧
      out.1.resources_fonts = σ.resources_fonts ∧ out.1.critical_css = σ.critical_css ∧
      out.1.applied_optimizations = σ.applied_optimizations ++ optimizeHtmlMessages := by
  unfold optimize_html at h
  cases hs : stageScripts σ with
  | none => rw [hs] at h; cases h
  | some d4 =>
    rw [hs] at h
    cases h
    exact ⟨rfl, rfl, rfl, rfl, rfl, rfl, rfl⟩

/-- Witness for C4 at a small concrete state. -/
theorem C4_transform_frame_witness :
    ∃ out, optimize_html stateSmall = some out ∧ out.1.dom = stateSmall.dom ∧
      out.1.applied_optimizations = stateSmall.applied_optimizations ++ optimizeHtmlMessages := by
  cases hp : optimize_html stateSmall with
  | none => exact absurd hp (by decide)
  | some out =>
    have h := C4_transform_frame stateSmall out hp
    exact ⟨out, rfl, h.1, h.2.2.2.2.2.2⟩

/-! ## Claim C10: at-rule blocks with several inner rules -/

theorem takeWhile_append_all {p : Char → Bool} :
    ∀ (l r : List Char), (∀ a ∈ l, p a = true) → (l ++ r).takeWhile p = l ++ r.takeWhile p := by
  intro l
  induction l with
  | nil => intro r _; simp
  | cons a l ih =>
    intro r hall
    have ha : p a = true := hall a (List.mem_cons_self _ _)
    simp only [List.cons_append, List.takeWhile_cons, ha, if_true]
    rw [ih r (fun b hb => hall b (List.mem_cons_of_mem _ hb))]

theorem dropWhile_append_all {p : Char → Bool} :
    ∀ (l r : List Char), (∀ a ∈ l, p a = true) → (l ++ r).dropWhile p = r.dropWhile p := by
  intro l
  induction l with
  | nil => intro r _; simp
  | cons a l ih =>
    intro r hall
    have ha : p a = true := hall a (List.mem_cons_self _ _)
    simp only [List.cons_append, List.dropWhile_cons, ha, if_true]
    exact ih r (fun b hb => hall b (List.mem_cons_of_mem _ hb))

/-- Trimming keeps a non-whitespace head character. -/
theorem pyStrip_head (c : Char) (rest : List Char) (hc : pyWs c = false) :
    ∃ t, pyStripL (c :: rest) = c :: t := by
  unfold pyStripL
  rw [List.dropWhile_cons, hc]
  simp only [Bool.false_eq_true, if_false]
  have hne : (c :: rest).reverse.dropWhile pyWs ≠ [] := by
    intro hnil
    have := (List.dropWhile_eq_nil_iff).mp hnil c (by simp)
    rw [hc] at this
    cases this
  have hsuf : (c :: rest).reverse.dropWhile pyWs <:+ (c :: rest).reverse :=
    List.dropWhile_suffix pyWs
  obtain ⟨s, hs⟩ := hsuf
  have hlast : ((c :: rest).reverse.dropWhile pyWs).getLast? = some c := by
    have h1 : (s ++ (c :: rest).reverse.dropWhile pyWs).getLast? = some c := by
      rw [hs]
      have : (c :: rest).reverse = rest.reverse ++ [c] := by simp
      rw [this]
      rw [List.getLast?_append_of_ne_nil _ (by simp)]
      rfl
    rw [List.getLast?_append_of_ne_nil _ hne] at h1
    exact h1
  have hhead : ((c :: rest).reverse.dropWhile pyWs).reverse.head? = some c := by
    rw [List.head?_reverse]
    exact hlast
  cases ht : ((c :: rest).reverse.dropWhile pyWs).reverse with
  | nil => rw [ht] at hhead; cases hhead
  | cons x t =>
    rw [ht] at hhead
    cases hhead
    exact ⟨t, rfl⟩

/-- The three facts the scan uses at a `H { T` boundary: a block-free,
nonempty prefix `H` survives the leading-brace skip whole, is exactly the
captured selector text, and the residue starts at the brace. -/
theorem scanStep (H T : List Char) (hH : ∀ c ∈ H, (c != '{') = true) (hne : H ≠ []) :
    (H ++ '{' :: T).dropWhile (· == '{') = H ++ '{' :: T ∧
      (H ++ '{' :: T).takeWhile (· != '{') = H ∧
      (H ++ '{' :: T).dropWhile (· != '{') = '{' :: T := by
  rcases H with _ | ⟨h0, H'⟩
  · cases hne rfl
  · have h0t : (h0 != '{') = true := hH h0 (by simp)
    have h0ne : (h0 == '{') = false := by
      cases he : h0 == '{'
      · rfl
      · rw [bne, he] at h0t; cases h0t
    refine ⟨?_, ?_, ?_⟩
    · show List.dropWhile _ (h0 :: (H' ++ '{' :: T)) = _
      rw [List.dropWhile_cons, h0ne]
      simp
    · rw [takeWhile_append_all _ _ hH]
      simp [List.takeWhile_cons]
    · rw [dropWhile_append_all _ _ hH]
      simp [List.dropWhile_cons]

/-- The body capture at a `H } T` boundary for a `}`-free `H`. -/
theorem bodyStep (H T : List Char) (hH : ∀ c ∈ H, (c != '}') = true) :
    (H ++ '}' :: T).takeWhile (· != '}') = H ∧
      (H ++ '}' :: T).dropWhile (· != '}') = '}' :: T := by
  constructor
  · rw [takeWhile_append_all _ _ hH]
    simp [List.takeWhile_cons]
  · rw [dropWhile_append_all _ _ hH]
    simp [List.dropWhile_cons]

/-- The scan on the at-rule shape `P { A { d1 } B { d2 } }` (with `P`, `B`
nonempty and every piece brace-free as hypothesised): the first match pairs
the at-rule prelude `P` with the first inner rule's block, the second match
is the second inner rule alone, and nothing else matches. -/
theorem cssFindall_shape (P A d1 B d2 : List Char)
    (hP : ∀ c ∈ P, (c != '{') = true)
    (hbody1 : ∀ c ∈ A ++ '{' :: d1, (c != '}') = true)
    (hB : ∀ c ∈ B, (c != '{') = true)
    (hd2 : ∀ c ∈ d2, (c != '}') = true)
    (hPne : P ≠ []) (hBne : B ≠ []) :
    cssFindall (P ++ '{' :: A ++ '{' :: d1 ++ '}' :: B ++ '{' :: d2 ++ ['}', '}'])
      = [(P, A ++ '{' :: d1), (B, d2)] := by
  have harr : P ++ '{' :: A ++ '{' :: d1 ++ '}' :: B ++ '{' :: d2 ++ ['}', '}']
      = P ++ '{' :: ((A ++ '{' :: d1) ++ '}' :: (B ++ '{' :: (d2 ++ ['}', '}']))) := by
    simp [List.append_assoc]
  obtain ⟨e1, e2, e3⟩ := scanStep P ((A ++ '{' :: d1) ++ '}' :: (B ++ '{' :: (d2 ++ ['}', '}']))) hP hPne
  obtain ⟨e4, e5⟩ := bodyStep (A ++ '{' :: d1) (B ++ '{' :: (d2 ++ ['}', '}'])) hbody1
  have hstep2 : cssFindall (B ++ '{' :: (d2 ++ ['}', '}'])) = [(B, d2)] := by
    obtain ⟨f1, f2, f3⟩ := scanStep B (d2 ++ ['}', '}']) hB hBne
    obtain ⟨f4, f5⟩ := bodyStep d2 ['}'] hd2
    rw [cssFindall_eq]
    simp only [f1, f2, f3, f4, f5]
    rfl
  rw [cssFindall_eq, harr]
  simp only [e1, e2, e3, e4, e5, hstep2]

/-- Claim C10: on CSS of the shape `@media X { A { d1 } B { d2 } }` (pieces
brace-free, `B` a nonempty selector not starting with `@` once trimmed), the
parser discards the at-rule prelude together with the first inner rule and
returns the second inner selector `B` as an ordinary top-level selector; the
composer therefore emits that inner rule stripped of its enclosing at-rule
condition whenever one of its comma-parts is critical. -/
theorem C10_at_rule_inner_rules (X A d1 B d2 url : String) (sels : List String)
    (hX : noBraces X = true) (hA : noBraces A = true) (hd1 : noBraces d1 = true)
    (hB : noBraces B = true) (hd2 : noBraces d2 = true) (hBne : B.data ≠ [])
    (hBat : pyStartsWith '@' (pyStrip B) = false)
    (hmem : (groupParts (pyStrip B)).any (fun s => sels.contains s) = true) :
    parse_css ("@media " ++ X ++ "\x7b" ++ A ++ "\x7b" ++ d1 ++ "\x7d" ++ B
        ++ "\x7b" ++ d2 ++ "\x7d\x7d")
      = groupParts (pyStrip B) ∧
    generate_critical_css sels [(url, "@media " ++ X ++ "\x7b" ++ A ++ "\x7b" ++ d1
        ++ "\x7d" ++ B ++ "\x7b" ++ d2 ++ "\x7d\x7d")]
      = cssHeader ++ cssPreamble ++ renderRule (pyStrip B) d2 := by
  have hnb : ∀ (s : String), noBraces s = true → ∀ c ∈ s.data, (c != '{') = true := by
    intro s hs c hc
    have h := List.all_eq_true.mp hs c hc
    cases hq : (c != '{')
    · rw [hq] at h
      simp at h
    · rfl
  have hnb2 : ∀ (s : String), noBraces s = true → ∀ c ∈ s.data, (c != '}') = true := by
    intro s hs c hc
    have h := List.all_eq_true.mp hs c hc
    cases hq : (c != '}')
    · rw [hq] at h
      simp at h
    · rfl
  have hdata : ("@media " ++ X ++ "\x7b" ++ A ++ "\x7b" ++ d1 ++ "\x7d" ++ B
        ++ "\x7b" ++ d2 ++ "\x7d\x7d").data
      = ("@media ".data ++ X.data) ++ '{' :: A.data ++ '{' :: d1.data ++ '}' :: B.data
        ++ '{' :: d2.data ++ ['}', '}'] := by
    simp [String.data_append, show ("\x7b" : String).data = ['{'] from rfl,
      show ("\x7d" : String).data = ['}'] from rfl,
      show ("\x7d\x7d" : String).data = ['}', '}'] from rfl]
  have hP : ∀ c ∈ "@media ".data ++ X.data, (c != '{') = true := by
    intro c hc
    rcases List.mem_append.mp hc with hc | hc
    · fin_cases hc <;> decide
    · exact hnb X hX c hc
  have hbody1 : ∀ c ∈ A.data ++ '{' :: d1.data, (c != '}') = true := by
    intro c hc
    rcases List.mem_append.mp hc with hc | hc
    · exact hnb2 A hA c hc
    · rcases List.mem_cons.mp hc with hc | hc
      · subst hc; decide
      · exact hnb2 d1 hd1 c hc
  have hshape := cssFindall_shape ("@media ".data ++ X.data) A.data d1.data B.data d2.data
    hP hbody1 (hnb B hB) (hnb2 d2 hd2) (by simp) hBne
  have hP0 : pyStartsWith '@' (pyStrip ⟨"@media ".data ++ X.data⟩) = true := by
    have hform : "@media ".data ++ X.data = '@' :: ("media ".data ++ X.data) := rfl
    obtain ⟨t, ht⟩ := pyStrip_head '@' ("media ".data ++ X.data) (by decide)
    show pyStartsWith '@' ⟨pyStripL ("@media ".data ++ X.data)⟩ = true
    rw [hform, ht]
    rfl
  have hBeta : (⟨B.data⟩ : String) = B := rfl
  have hd2eta : (⟨d2.data⟩ : String) = d2 := rfl
  have hgroups : parsedGroups ("@media " ++ X ++ "\x7b" ++ A ++ "\x7b" ++ d1 ++ "\x7d"
      ++ B ++ "\x7b" ++ d2 ++ "\x7d\x7d")
      = [pyStrip ⟨"@media ".data ++ X.data⟩, pyStrip B] := by
    unfold parsedGroups
    rw [hdata, hshape]
    simp [hBeta]
  constructor
  · rw [parse_css_eq, hgroups]
    simp only [List.filter_cons, List.filter_nil, hP0, hBat]
    simp
  · rw [generate_eq]
    have hemit : emittedRules sels [(url, "@media " ++ X ++ "\x7b" ++ A ++ "\x7b" ++ d1
        ++ "\x7d" ++ B ++ "\x7b" ++ d2 ++ "\x7d\x7d")] = [(pyStrip B, d2)] := by
      unfold emittedRules
      simp only [List.flatMap_cons, List.flatMap_nil, List.append_nil]
      rw [hdata, hshape]
      simp only [List.filterMap_cons, List.filterMap_nil, hP0, hBat, hmem, hBeta, hd2eta,
        Bool.not_true, Bool.not_false, Bool.false_and, Bool.true_and]
      simp [hBeta, hd2eta]
    rw [hemit, show renderAll [(pyStrip B, d2)] = renderRule (pyStrip B) d2 ++ "" from rfl,
      String.append_empty]

/-- Witness for C10 at a concrete at-rule with two inner rules. -/
theorem C10_at_rule_inner_rules_witness :
    parse_css "@media screen\x7b.a\x7bcolor:red\x7d.b\x7bcolor:blue\x7d\x7d"
        = groupParts (pyStrip ".b") ∧
      generate_critical_css [".b"]
          [("u", "@media screen\x7b.a\x7bcolor:red\x7d.b\x7bcolor:blue\x7d\x7d")]
        = cssHeader ++ cssPreamble ++ renderRule (pyStrip ".b") "color:blue" := by
  have h := C10_at_rule_inner_rules "screen" ".a" "color:red" ".b" "color:blue" "u" [".b"]
    (by decide) (by decide) (by decide) (by decide) (by decide) (by decide)
    (by decide) (by decide)
  exact h

/-! ## Claim C3: attribute lookup, the head/style edits preserve stylesheet
links, and the link pass fails exactly on a missing `href` -/

theorem find?_setPair_self (k v : String) :
    ∀ a : List (String × String), ((setPair k v a).find? (fun p => p.1 == k)) = some (k, v) := by
  intro a
  induction a with
  | nil => simp [setPair, List.find?]
  | cons p ps ih =>
    by_cases h : p.1 == k
    · simp [setPair, h, List.find?]
    · simp only [setPair, h]
      rw [if_neg (by simp [h])]
      simp [List.find?, h, ih]

theorem find?_setPair_ne (k v key : String) (hne : (k == key) = false) :
    ∀ a : List (String × String),
      ((setPair k v a).find? (fun p => p.1 == key)) = a.find? (fun p => p.1 == key) := by
  intro a
  induction a with
  | nil => simp [setPair, List.find?, hne]
  | cons p ps ih =>
    by_cases h : p.1 == k
    · have hp : p.1 = k := by simpa using h
      simp [setPair, h, List.find?, hp, hne]
    · simp only [setPair]
      rw [if_neg (by simp [h])]
      by_cases hk : p.1 == key
      · simp [List.find?, hk]
      · simp [List.find?, hk, ih]

theorem getAttr_setAttr_self (n : Node) (k v : String) (hn : n.tag? ≠ none) :
    (n.setAttr k v).getAttr k = some v := by
  cases n with
  | text s => simp [Node.tag?] at hn
  | elem t a c =>
    show ((setPair k v a).find? (fun p => p.1 == k)).map Prod.snd = some v
    rw [find?_setPair_self]
    rfl

theorem getAttr_setAttr_ne (n : Node) (k v key : String) (hne : (k == key) = false) :
    (n.setAttr k v).getAttr key = n.getAttr key := by
  cases n with
  | text s => rfl
  | elem t a c =>
    show ((setPair k v a).find? (fun p => p.1 == key)).map Prod.snd = _
    rw [find?_setPair_ne k v key hne]
    rfl

/-- `hasAttr href` after the preload rewrite reduces to `hasAttr href`
before it: the rewrites only add attributes, and a resource hit adds
`href` itself. -/
theorem rewriteLink_href_none (rs : List UrlResource) (link : Node) (hl : link.tag? ≠ none)
    (h : (rewriteLinkAttrs rs link).getAttr "href" = none) :
    link.getAttr "href" = none := by
  unfold rewriteLinkAttrs at h
  have base : ∀ (l : List UrlResource) (m : Node), m.tag? ≠ none →
      (l.foldl (fun l r =>
        if r.element == l then
          match r.local_path with
          | some lp => l.setAttr "href" lp
          | none => l
        else l) m).getAttr "href" = none → m.getAttr "href" = none := by
    intro l
    induction l with
    | nil => intro m _ hm; exact hm
    | cons r rest ih =>
      intro m hmt hm
      simp only [List.foldl_cons] at hm
      by_cases hr : r.element == m
      · rw [if_pos hr] at hm
        cases hlp : r.local_path with
        | none => rw [hlp] at hm; exact ih m hmt hm
        | some lp =>
          rw [hlp] at hm
          have hset : (m.setAttr "href" lp).tag? ≠ none := by
            cases m with
            | text s => simp [Node.tag?] at hmt
            | elem t a c => simp [Node.setAttr, Node.tag?]
          have := ih _ hset hm
          rw [getAttr_setAttr_self m "href" lp hmt] at this
          cases this
      · rw [if_neg hr] at hm
        exact ih m hmt hm
  have htag : (((link.setAttr "rel" "preload").setAttr "as" "style").setAttr "onload"
      onloadHandler).tag? ≠ none := by
    cases link with
    | text s => simp [Node.tag?] at hl
    | elem t a c => simp [Node.setAttr, Node.tag?]
  have h1 := base rs _ htag h
  rw [getAttr_setAttr_ne _ _ _ _ (by decide), getAttr_setAttr_ne _ _ _ _ (by decide),
    getAttr_setAttr_ne _ _ _ _ (by decide)] at h1
  exact h1

theorem rewriteLink_href_some (rs : List UrlResource) (link : Node) (hl : link.tag? ≠ none)
    (h : link.hasAttr "href" = true) :
    ((rewriteLinkAttrs rs link).getAttr "href").isSome := by
  cases hres : (rewriteLinkAttrs rs link).getAttr "href" with
  | some v => rfl
  | none =>
    have := rewriteLink_href_none rs link hl hres
    unfold Node.hasAttr at h
    rw [this] at h
    cases h

theorem forestElems_append :
    ∀ (l1 l2 : List Node), forestElems (l1 ++ l2) = forestElems l1 ++ forestElems l2 := by
  intro l1 l2
  induction l1 with
  | nil => simp [forestElems]
  | cons n ns ih =>
    show nodeElems n ++ forestElems (ns ++ l2) = (nodeElems n ++ forestElems ns) ++ _
    rw [ih, List.append_assoc]

/-- Inserting a link-free subtree as a first child changes no stylesheet
link's attribute list (the modified node keeps its own tag and attributes,
so even a link gaining a child keeps its attribute-list entry). -/
theorem insert0_linkAttrs (x : Node) (hx : (nodeElems x).filter isStylesheetLink = [])
    (n : Node) :
    ((nodeElems (insertChildAt 0 x n)).filter isStylesheetLink).map Node.attrs
      = ((nodeElems n).filter isStylesheetLink).map Node.attrs := by
  cases n with
  | text s => rfl
  | elem t a c =>
    show ((Node.elem t a (x :: c) :: forestElems (x :: c)).filter isStylesheetLink).map
        Node.attrs
      = ((Node.elem t a c :: forestElems c).filter isStylesheetLink).map Node.attrs
    have hind : isStylesheetLink (Node.elem t a (x :: c)) = isStylesheetLink (Node.elem t a c) :=
      rfl
    show ((Node.elem t a (x :: c) :: (nodeElems x ++ forestElems c)).filter
        isStylesheetLink).map Node.attrs = _
    rw [List.filter_cons, List.filter_cons, List.filter_append, hx, List.nil_append, hind]
    cases hp : isStylesheetLink (Node.elem t a c) <;> simp [Node.attrs]

mutual
theorem editNode_linkAttrs (pred : Node → Bool) (f : Node → Node)
    (hf : ∀ m, pred m = true →
      ((nodeElems (f m)).filter isStylesheetLink).map Node.attrs
        = ((nodeElems m).filter isStylesheetLink).map Node.attrs) :
    ∀ n : Node,
      ((nodeElems (editFirstNode pred f n).1).filter isStylesheetLink).map Node.attrs
        = ((nodeElems n).filter isStylesheetLink).map Node.attrs
  | .text s => by simp [editFirstNode, nodeElems]
  | .elem t a c => by
    by_cases hp : pred (.elem t a c)
    · simp only [editFirstNode, hp, if_true]
      exact hf _ hp
    · simp only [editFirstNode, hp]
      rw [if_neg (by simp [hp])]
      cases hef : editFirstForest pred f c with
      | mk c' flag =>
        cases flag
        · rfl
        · show ((Node.elem t a c' :: forestElems c').filter isStylesheetLink).map Node.attrs
            = ((Node.elem t a c :: forestElems c).filter isStylesheetLink).map Node.attrs
          have hc' : ((forestElems c').filter isStylesheetLink).map Node.attrs
              = ((forestElems c).filter isStylesheetLink).map Node.attrs := by
            have := editForest_linkAttrs pred f hf c
            rw [hef] at this
            exact this
          have hind : isStylesheetLink (Node.elem t a c')
              = isStylesheetLink (Node.elem t a c) := rfl
          rw [List.filter_cons, List.filter_cons, hind]
          cases hq : isStylesheetLink (Node.elem t a c) <;> simp [Node.attrs, hc']
theorem editForest_linkAttrs (pred : Node → Bool) (f : Node → Node)
    (hf : ∀ m, pred m = true →
      ((nodeElems (f m)).filter isStylesheetLink).map Node.attrs
        = ((nodeElems m).filter isStylesheetLink).map Node.attrs) :
    ∀ l : List Node,
      ((forestElems (editFirstForest pred f l).1).filter isStylesheetLink).map Node.attrs
        = ((forestElems l).filter isStylesheetLink).map Node.attrs
  | [] => by simp [editFirstForest]
  | n :: ns => by
    cases hen : editFirstNode pred f n with
    | mk n' flag =>
      cases flag
      · simp only [editFirstForest, hen]
        cases hef : editFirstForest pred f ns with
        | mk ns' done =>
          show ((forestElems (n :: ns')).filter isStylesheetLink).map Node.attrs = _
          show ((nodeElems n ++ forestElems ns').filter isStylesheetLink).map Node.attrs = _
          have hns : ((forestElems ns').filter isStylesheetLink).map Node.attrs
              = ((forestElems ns).filter isStylesheetLink).map Node.attrs := by
            have := editForest_linkAttrs pred f hf ns
            rw [hef] at this
            exact this
          show _ = ((nodeElems n ++ forestElems ns).filter isStylesheetLink).map Node.attrs
          rw [List.filter_append, List.filter_append, List.map_append, List.map_append, hns]
      · simp only [editFirstForest, hen]
        show ((nodeElems n' ++ forestElems ns).filter isStylesheetLink).map Node.attrs = _
        have hn : ((nodeElems n').filter isStylesheetLink).map Node.attrs
            = ((nodeElems n).filter isStylesheetLink).map Node.attrs := by
          have := editNode_linkAttrs pred f hf n
          rw [hen] at this
          exact this
        show _ = ((nodeElems n ++ forestElems ns).filter isStylesheetLink).map Node.attrs
        rw [List.filter_append, List.filter_append, List.map_append, List.map_append, hn]
end

theorem editFirst_linkAttrs (pred : Node → Bool) (f : Node → Node)
    (hf : ∀ m, pred m = true →
      ((nodeElems (f m)).filter isStylesheetLink).map Node.attrs
        = ((nodeElems m).filter isStylesheetLink).map Node.attrs)
    (t : List Node) : sheetAttrsList (editFirst pred f t) = sheetAttrsList t :=
  editForest_linkAttrs pred f hf t

theorem ensureHead_linkAttrs (t : List Node) :
    sheetAttrsList (ensureHead t) = sheetAttrsList t := by
  unfold ensureHead
  by_cases h1 : (forestElems t).any (·.tagIs "head")
  · rw [if_pos h1]
  · rw [if_neg h1]
    by_cases h2 : (forestElems t).any (·.tagIs "html")
    · rw [if_pos h2]
      exact editFirst_linkAttrs _ _ (fun m _ => insert0_linkAttrs headNode rfl m) t
    · rw [if_neg h2]
      show sheetAttrsList (t ++ [Node.elem "html" [] [headNode]]) = _
      unfold sheetAttrsList sheetLinks
      rw [forestElems_append, List.filter_append]
      simp [forestElems, nodeElems, headNode, isStylesheetLink, Node.tagIs, Node.tag?]

theorem inlineCritical_linkAttrs (critical : Option String) (t : List Node) :
    sheetAttrsList (inlineCritical critical t) = sheetAttrsList t := by
  cases critical with
  | none => rfl
  | some css =>
    exact editFirst_linkAttrs _ _ (fun m _ => insert0_linkAttrs (styleNode css) rfl m) t

theorem hasAttr_of_attrs_eq (m m' : Node) (k : String) (h : m.attrs = m'.attrs) :
    m.hasAttr k = m'.hasAttr k := by
  unfold Node.hasAttr Node.getAttr
  rw [h]

mutual
theorem linksNode_isSome (rs : List UrlResource) :
    ∀ n : Node, (∀ m ∈ (nodeElems n).filter isStylesheetLink, m.hasAttr "href" = true) →
      (linksNode rs n).isSome
  | .text s => fun _ => rfl
  | .elem t a c => fun h => by
    by_cases hl : isStylesheetLink (.elem t a c)
    · have hm : (Node.elem t a c).hasAttr "href" = true := by
        apply h
        show Node.elem t a c ∈ (Node.elem t a c :: forestElems c).filter isStylesheetLink
        rw [List.filter_cons, if_pos (by simpa using hl)]
        exact List.mem_cons_self _ _
      have hsome := rewriteLink_href_some rs (Node.elem t a c) (by simp [Node.tag?]) hm
      simp only [linksNode, hl, if_true]
      cases hg : (rewriteLinkAttrs rs (Node.elem t a c)).getAttr "href" with
      | none => rw [hg] at hsome; cases hsome
      | some v => simp [hg]
    · have hc : ∀ m ∈ (forestElems c).filter isStylesheetLink, m.hasAttr "href" = true := by
        intro m hm
        apply h
        show m ∈ (Node.elem t a c :: forestElems c).filter isStylesheetLink
        rw [List.filter_cons, if_neg (by simpa using hl)]
        exact hm
      have hfs := linksForest_isSome rs c hc
      simp only [linksNode, hl]
      rw [if_neg (by simpa using hl)]
      cases hlf : linksForest rs c with
      | none => rw [hlf] at hfs; cases hfs
      | some c' => simp [hlf]
theorem linksForest_isSome (rs : List UrlResource) :
    ∀ l : List Node, (∀ m ∈ (forestElems l).filter isStylesheetLink, m.hasAttr "href" = true) →
      (linksForest rs l).isSome
  | [] => fun _ => rfl
  | n :: ns => fun h => by
    have hsplit : ∀ m, m ∈ (nodeElems n).filter isStylesheetLink ∨
        m ∈ (forestElems ns).filter isStylesheetLink → m.hasAttr "href" = true := by
      intro m hm
      apply h
      show m ∈ (nodeElems n ++ forestElems ns).filter isStylesheetLink
      rw [List.filter_append]
      exact List.mem_append.mpr hm
    have hn := linksNode_isSome rs n (fun m hm => hsplit m (Or.inl hm))
    have hns := linksForest_isSome rs ns (fun m hm => hsplit m (Or.inr hm))
    simp only [linksForest]
    cases h1 : linksNode rs n with
    | none => rw [h1] at hn; cases hn
    | some l1 =>
      cases h2 : linksForest rs ns with
      | none => rw [h2] at hns; cases hns
      | some l2 => simp
end

mutual
theorem linksNode_none (rs : List UrlResource) :
    ∀ n : Node, linksNode rs n = none →
      ∃ m ∈ (nodeElems n).filter isStylesheetLink, m.hasAttr "href" = false
  | .text s => by intro h; cases h
  | .elem t a c => by
    intro h
    by_cases hl : isStylesheetLink (.elem t a c)
    · simp only [linksNode, hl, if_true] at h
      cases hg : (rewriteLinkAttrs rs (Node.elem t a c)).getAttr "href" with
      | some v => rw [hg] at h; cases h
      | none =>
        have horig := rewriteLink_href_none rs (Node.elem t a c) (by simp [Node.tag?]) hg
        refine ⟨Node.elem t a c, ?_, ?_⟩
        · show Node.elem t a c ∈ (Node.elem t a c :: forestElems c).filter isStylesheetLink
          rw [List.filter_cons, if_pos (by simpa using hl)]
          exact List.mem_cons_self _ _
        · simp [Node.hasAttr, horig]
    · simp only [linksNode, hl] at h
      rw [if_neg (by simpa using hl)] at h
      cases hlf : linksForest rs c with
      | some c' => rw [hlf] at h; cases h
      | none =>
        obtain ⟨m, hm, hfalse⟩ := linksForest_none rs c hlf
        refine ⟨m, ?_, hfalse⟩
        show m ∈ (Node.elem t a c :: forestElems c).filter isStylesheetLink
        rw [List.filter_cons, if_neg (by simpa using hl)]
        exact hm
theorem linksForest_none (rs : List UrlResource) :
    ∀ l : List Node, linksForest rs l = none →
      ∃ m ∈ (forestElems l).filter isStylesheetLink, m.hasAttr "href" = false
  | [] => by intro h; cases h
  | n :: ns => by
    intro h
    simp only [linksForest] at h
    cases h1 : linksNode rs n with
    | none =>
      obtain ⟨m, hm, hfalse⟩ := linksNode_none rs n h1
      refine ⟨m, ?_, hfalse⟩
      show m ∈ (nodeElems n ++ forestElems ns).filter isStylesheetLink
      rw [List.filter_append]
      exact List.mem_append.mpr (Or.inl hm)
    | some l1 =>
      cases h2 : linksForest rs ns with
      | none =>
        obtain ⟨m, hm, hfalse⟩ := linksForest_none rs ns h2
        refine ⟨m, ?_, hfalse⟩
        show m ∈ (nodeElems n ++ forestElems ns).filter isStylesheetLink
        rw [List.filter_append]
        exact List.mem_append.mpr (Or.inr hm)
      | some l2 => rw [h1, h2] at h; cases h
end

theorem sheetLinksOk_eq (t : List Node) :
    sheetLinksOk t = (sheetAttrsList t).all attrsHasHref := by
  have hpt : ∀ n : Node, n.hasAttr "href" = attrsHasHref n.attrs := by
    intro n
    cases hfind : n.attrs.find? (fun p => p.1 == "href") <;>
      simp [Node.hasAttr, Node.getAttr, attrsHasHref, hfind]
  unfold sheetLinksOk sheetAttrsList
  generalize sheetLinks t = l
  induction l with
  | nil => rfl
  | cons n ns ih =>
    simp only [List.all_cons, List.map_cons]
    rw [ih, hpt n]

theorem optimize_html_isSome (σ : OptimizerState) :
    (optimize_html σ).isSome ↔ (stageScripts σ).isSome := by
  unfold optimize_html
  cases hs : stageScripts σ <;> simp [hs]

/-- Claim C3 counterexample: an image with a non-integer `width` makes
`find_above_fold_elements` raise (line 126's `int()`), and a stylesheet link
without `href` makes `_optimize_html` raise (line 290's `link['href']`);
neither degrades gracefully. -/
theorem C3_counterexample :
    find_above_fold_elements [imgBad] = none ∧ optimize_html stateBadLink = none := by
  exact ⟨by decide, by decide⟩

/-- Claim C3 amended: parsing, signature building, matching, composition and
per-step transform passes are total by construction, but two fatal branches
remain: above-fold selection succeeds exactly when every image declaring
both size attributes has integer values (otherwise `int()` raises), and the
transform succeeds whenever every stylesheet link has an `href` and fails
only when some stylesheet link lacks one (`link['href']` raises). -/
theorem C3_graceful_degradation_amended :
    (∀ doc : List Node, (find_above_fold_elements doc).isSome ↔ sizedParseOk doc = true) ∧
      (∀ σ : OptimizerState, sheetLinksOk σ.dom = true → (optimize_html σ).isSome) ∧
      (∀ σ : OptimizerState, optimize_html σ = none → sheetLinksOk σ.dom = false) := by
  refine ⟨?_, ?_, ?_⟩
  · intro doc
    constructor
    · intro h
      cases hk : keyedImgs (sizedImgs doc) with
      | none =>
        unfold find_above_fold_elements at h
        rw [hk] at h
        simp at h
      | some k =>
        apply List.all_eq_true.mpr
        intro i hi
        have := (keyedImgs_isSome (sizedImgs doc)).mp (by rw [hk]; rfl) i hi
        simpa using this
    · intro h
      have hall : ∀ i ∈ sizedImgs doc, (areaKey i).isSome := fun i hi => by
        simpa using List.all_eq_true.mp h i hi
      obtain ⟨k, hk⟩ := Option.isSome_iff_exists.mp ((keyedImgs_isSome _).mpr hall)
      unfold find_above_fold_elements
      rw [hk]
      rfl
  · intro σ h
    have hpres : sheetAttrsList (inlineCritical σ.critical_css (ensureHead σ.dom))
        = sheetAttrsList σ.dom := by
      rw [inlineCritical_linkAttrs, ensureHead_linkAttrs]
    have hok2 : sheetLinksOk (inlineCritical σ.critical_css (ensureHead σ.dom)) = true := by
      rw [sheetLinksOk_eq, hpres, ← sheetLinksOk_eq]
      exact h
    have hforest : (linksForest σ.resources_css
        (inlineCritical σ.critical_css (ensureHead σ.dom))).isSome := by
      apply linksForest_isSome
      intro m hm
      exact List.all_eq_true.mp hok2 m hm
    rw [optimize_html_isSome]
    unfold stageScripts
    cases hlf : linksForest σ.resources_css (inlineCritical σ.critical_css (ensureHead σ.dom))
    · rw [hlf] at hforest; cases hforest
    · simp [hlf]
  · intro σ h
    have hstage : stageScripts σ = none := by
      unfold optimize_html at h
      cases hs : stageScripts σ with
      | none => rfl
      | some d4 => rw [hs] at h; cases h
    have hlf : linksForest σ.resources_css
        (inlineCritical σ.critical_css (ensureHead σ.dom)) = none := by
      unfold stageScripts at hstage
      cases hl : linksForest σ.resources_css (inlineCritical σ.critical_css (ensureHead σ.dom))
      · rfl
      · rw [hl] at hstage; cases hstage
    obtain ⟨m, hm, hfalse⟩ := linksForest_none _ _ hlf
    have hmem : m.attrs ∈ sheetAttrsList σ.dom := by
      have hmem2 : m.attrs ∈ sheetAttrsList (inlineCritical σ.critical_css (ensureHead σ.dom)) :=
        List.mem_map_of_mem _ hm
      rw [inlineCritical_linkAttrs, ensureHead_linkAttrs] at hmem2
      exact hmem2
    obtain ⟨m', hm', hattr⟩ := List.mem_map.mp hmem
    cases hok : sheetLinksOk σ.dom with
    | false => rfl
    | true =>
      have htrue := List.all_eq_true.mp hok m' hm'
      rw [← hasAttr_of_attrs_eq m m' "href" hattr.symm] at htrue
      rw [hfalse] at htrue
      cases htrue

/-- Witness for the amended C3 at concrete inputs: a parsable sized image,
and a state whose stylesheet links all carry `href`. -/
theorem C3_graceful_degradation_amended_witness :
    ((find_above_fold_elements [imgSmall]).isSome ↔ sizedParseOk [imgSmall] = true) ∧
      (sheetLinksOk stateSmall.dom = true ∧ (optimize_html stateSmall).isSome) :=
  ⟨C3_graceful_degradation_amended.1 [imgSmall],
    ⟨by decide, C3_graceful_degradation_amended.2.1 stateSmall (by decide)⟩⟩

/-! ## Claim C5: the transform's LCP scan against the dominant-image
heuristic -/

theorem band_true {a b : Bool} (h : (a && b) = true) : a = true ∧ b = true := by
  cases a <;> cases b <;> simp_all

theorem setPair_self (k v : String) :
    ∀ a : List (String × String),
      (a.find? (fun p => p.1 == k)).map Prod.snd = some v → setPair k v a = a := by
  intro a
  induction a with
  | nil => intro h; simp [List.find?] at h
  | cons p ps ih =>
    intro h
    by_cases hp : (p.1 == k) = true
    · have hfind : List.find? (fun q => q.1 == k) (p :: ps) = some p := by
        simp [List.find?, hp]
      rw [hfind] at h
      have hk : p.1 = k := by simpa using hp
      have hv : p.2 = v := by simpa using h
      simp only [setPair, hp, if_true]
      rw [← hk, ← hv]
    · have hp' : (p.1 == k) = false := by simpa using hp
      have hfind : List.find? (fun q => q.1 == k) (p :: ps)
          = List.find? (fun q => q.1 == k) ps := by
        simp [List.find?, hp']
      rw [hfind] at h
      simp only [setPair]
      rw [if_neg (by simp [hp']), ih h]

theorem setAttr_self (n : Node) (k v : String) (h : n.getAttr k = some v) :
    n.setAttr k v = n := by
  cases n with
  | text s => rfl
  | elem t a c =>
    show Node.elem t (setPair k v a) c = Node.elem t a c
    rw [setPair_self k v a h]

/-- Unpacking the decidable `goodImg` check into its component facts,
including that the image's declared area is the matched resource's area and
positive. -/
theorem goodImg_spec (res : List ImgResource) (i : Node) (pos : Nat)
    (h : goodImg res i pos = true) :
    pos < viewportHeight ∧
      ∃ r w hh lp, res.filter (fun r' => r'.element == i) = [r] ∧
        r.local_path = some lp ∧ i.getAttr "src" = some lp ∧ r.webp_path = none ∧
        r.width = some w ∧ r.height = some hh ∧
        i.getAttr "width" = some (toString w) ∧ i.getAttr "height" = some (toString hh) ∧
        areaKey i = some (w * hh) ∧ 0 < w * hh := by
  unfold goodImg at h
  obtain ⟨hp, hrest⟩ := band_true h
  refine ⟨of_decide_eq_true hp, ?_⟩
  cases hfil : res.filter (fun r' => r'.element == i) with
  | nil => rw [hfil] at hrest; simp at hrest
  | cons r rest' =>
    cases rest' with
    | cons r2 rest'' => rw [hfil] at hrest; simp at hrest
    | nil =>
      rw [hfil] at hrest
      obtain ⟨hlw, hdims⟩ := band_true hrest
      obtain ⟨hlpb, hwebb⟩ := band_true hlw
      have hweb : r.webp_path = none := by simpa using hwebb
      cases hlp : r.local_path with
      | none => rw [hlp] at hlpb; simp at hlpb
      | some lp =>
        rw [hlp] at hlpb
        have hsrc : i.getAttr "src" = some lp := by simpa using hlpb
        cases hw : r.width with
        | none => rw [hw] at hdims; simp at hdims
        | some w =>
          cases hh : r.height with
          | none => rw [hw, hh] at hdims; simp at hdims
          | some hv =>
            rw [hw, hh] at hdims
            obtain ⟨h4, h5⟩ := band_true hdims
            obtain ⟨h6, h7⟩ := band_true h4
            obtain ⟨h8, h9⟩ := band_true h6
            obtain ⟨h10, h11⟩ := band_true h8
            have hwa : i.getAttr "width" = some (toString w) := by simpa using h10
            have hha : i.getAttr "height" = some (toString hv) := by simpa using h11
            have hpw : pyInt (toString w) = some w := by simpa using h9
            have hph : pyInt (toString hv) = some hv := by simpa using h7
            have hpos0 : 0 < w * hv := of_decide_eq_true h5
            refine ⟨r, w, hv, lp, rfl, hlp, hsrc, hweb, hw, hh, hwa, hha, ?_, hpos0⟩
            simp [areaKey, hwa, hha, hpw, hph]

theorem processImgStep_skip (idx pos : Nat) (acc : ImgOut × LcpState) (r : ImgResource)
    (h : (r.element == acc.1.final) = false) : processImgStep idx pos acc r = acc := by
  simp only [processImgStep]
  rw [if_neg (by simp [h])]

theorem processImgStep_hit (idx pos : Nat) (out : ImgOut) (st : LcpState) (r : ImgResource)
    (i : Node) (w hh : Int) (lp : String)
    (hfin : out.final = i) (hmatch : (r.element == i) = true)
    (hlp : r.local_path = some lp) (hsrc : i.getAttr "src" = some lp)
    (hw : r.width = some w) (hh2 : r.height = some hh)
    (hwa : i.getAttr "width" = some (toString w))
    (hha : i.getAttr "height" = some (toString hh))
    (hpos : pos < viewportHeight) :
    ∃ webps, processImgStep idx pos (out, st) r
      = ({ final := i, webps := webps },
          if w * hh > st.largest then LcpState.mk (some idx) (w * hh) else st) := by
  have e1 : i.setAttr "src" lp = i := setAttr_self _ _ _ hsrc
  have e2 : i.setAttr "width" (toString w) = i := setAttr_self _ _ _ hwa
  have e3 : i.setAttr "height" (toString hh) = i := setAttr_self _ _ _ hha
  refine ⟨(match r.webp_path with | some wp => out.webps ++ [wp] | none => out.webps), ?_⟩
  simp only [processImgStep, hfin, hmatch, if_true, hlp, hw, hh2, e1, e2, e3]
  by_cases harea : w * hh > st.largest <;> simp [harea, hpos]

theorem foldl_steps_nomatch (idx pos : Nat) (i : Node) :
    ∀ (l : List ImgResource) (out : ImgOut) (st : LcpState), out.final = i →
      l.filter (fun r' => r'.element == i) = [] →
      l.foldl (processImgStep idx pos) (out, st) = (out, st) := by
  intro l
  induction l with
  | nil => intro out st _ _; rfl
  | cons a as iha =>
    intro out st hfin hf
    have ha : (a.element == i) = false := by
      cases hb : (a.element == i)
      · rfl
      · rw [List.filter_cons, if_pos hb] at hf
        cases hf
    rw [List.filter_cons, if_neg (by simp [ha])] at hf
    rw [List.foldl_cons, processImgStep_skip _ _ _ _ (by rw [hfin]; exact ha)]
    exact iha out st hfin hf

/-- Under the `goodImg` hypotheses the per-image loop leaves the image value
unchanged and performs exactly one strict-maximum comparison with the
image's declared area. -/
theorem processImg_good (res : List ImgResource) (i : Node) (pos : Nat)
    (hg : goodImg res i pos = true) (idx : Nat) (st : LcpState) :
    (processImg res idx i pos st).1.final = i ∧
      (processImg res idx i pos st).2
        = (if (areaKey i).getD 0 > st.largest
            then LcpState.mk (some idx) ((areaKey i).getD 0) else st) := by
  obtain ⟨hpos, r, w, hv, lp, hfil, hlp, hsrc, -, hw, hh2, hwa, hha, hak, hpos0⟩ :=
    goodImg_spec res i pos hg
  have hakd : (areaKey i).getD 0 = w * hv := by rw [hak]; rfl
  have main : ∀ (l : List ImgResource) (out : ImgOut) (st : LcpState),
      out.final = i → l.filter (fun r' => r'.element == i) = [r] →
      (l.foldl (processImgStep idx pos) (out, st)).1.final = i ∧
        (l.foldl (processImgStep idx pos) (out, st)).2
          = (if w * hv > st.largest then LcpState.mk (some idx) (w * hv) else st) := by
    intro l
    induction l with
    | nil => intro out st _ hf; simp at hf
    | cons r' rest ih =>
      intro out st hfin hf
      by_cases hr' : (r'.element == i) = true
      · rw [List.filter_cons, if_pos hr'] at hf
        injection hf with hrr hrest
        subst hrr
        obtain ⟨ws, hstep⟩ := processImgStep_hit idx pos out st r' i w hv lp hfin hr'
          hlp hsrc hw hh2 hwa hha hpos
        rw [List.foldl_cons, hstep,
          foldl_steps_nomatch idx pos i rest _ _ rfl hrest]
        exact ⟨rfl, rfl⟩
      · have hskip : (r'.element == out.final) = false := by
          rw [hfin]
          cases hb : (r'.element == i)
          · rfl
          · exact absurd hb hr'
        rw [List.filter_cons, if_neg (by simpa using hr')] at hf
        rw [List.foldl_cons, processImgStep_skip _ _ _ _ hskip]
        exact ih out st hfin hf
  have hm := main res { final := i, webps := [] } st rfl hfil
  rw [hakd]
  exact hm

theorem processImgsGo_scan (res : List ImgResource) :
    ∀ (l : List (Node × Nat)) (idx : Nat) (st : LcpState),
      l.all (fun ip => goodImg res ip.1 ip.2) = true →
      (processImgsGo res idx st l).2
        = scanSpec idx st (l.map (fun ip => (areaKey ip.1).getD 0))
  | [] => fun _ _ _ => rfl
  | ip :: rest => fun idx st hall => by
    have h1 : goodImg res ip.1 ip.2 = true := by
      simpa using List.all_eq_true.mp hall ip (List.mem_cons_self _ _)
    have h2 : rest.all (fun q => goodImg res q.1 q.2) = true := by
      apply List.all_eq_true.mpr
      intro q hq
      simpa using List.all_eq_true.mp hall q (List.mem_cons_of_mem _ hq)
    have hp := processImg_good res ip.1 ip.2 h1 idx st
    simp only [processImgsGo]
    rw [processImgsGo_scan res rest (idx + 1) _ h2]
    simp only [List.map_cons, scanSpec]
    rw [hp.2]

theorem firstMaxIdx_none : ∀ l : List Int, firstMaxIdx l = none → l = []
  | [] => fun _ => rfl
  | a :: rest => fun h => by
    simp only [firstMaxIdx] at h
    cases hr : firstMaxIdx rest with
    | none => rw [hr] at h; cases h
    | some kb =>
      obtain ⟨k, b⟩ := kb
      rw [hr] at h
      by_cases hab : a ≥ b
      · simp [hab] at h
      · simp [hab] at h

theorem scanSpec_eq :
    ∀ (l : List Int) (idx : Nat) (st : LcpState),
      scanSpec idx st l =
        match firstMaxIdx l with
        | none => st
        | some (k, b) => if b > st.largest then LcpState.mk (some (idx + k)) b else st
  | [] => fun _ _ => rfl
  | a :: rest => fun idx st => by
    have ih := scanSpec_eq rest (idx + 1)
      (if a > st.largest then LcpState.mk (some idx) a else st)
    simp only [scanSpec]
    rw [ih]
    cases hr : firstMaxIdx rest with
    | none =>
      have hre : rest = [] := firstMaxIdx_none rest hr
      subst hre
      simp only [firstMaxIdx]
      by_cases hc : a > st.largest
      · simp [hc]
      · simp [hc]
    | some kb =>
      obtain ⟨k, b⟩ := kb
      simp only [firstMaxIdx, hr]
      by_cases hab : a ≥ b
      · rw [if_pos hab]
        by_cases hc : a > st.largest
        · rw [if_pos hc]
          show (if b > (LcpState.mk (some idx) a).largest
              then LcpState.mk (some (idx + 1 + k)) b
              else LcpState.mk (some idx) a)
            = if a > st.largest then LcpState.mk (some (idx + 0)) a else st
          rw [if_neg (by show ¬b > a; omega), if_pos hc]
          simp
        · rw [if_neg hc]
          show (if b > st.largest then LcpState.mk (some (idx + 1 + k)) b else st)
            = if a > st.largest then LcpState.mk (some (idx + 0)) a else st
          rw [if_neg (by simp at hc; omega), if_neg hc]
      · rw [if_neg hab]
        by_cases hc : a > st.largest
        · rw [if_pos hc]
          show (if b > (LcpState.mk (some idx) a).largest
              then LcpState.mk (some (idx + 1 + k)) b
              else LcpState.mk (some idx) a)
            = if b > st.largest then LcpState.mk (some (idx + (k + 1))) b else st
          have hba : b > a := by omega
          rw [if_pos (by show b > a; exact hba), if_pos (by omega)]
          have : idx + 1 + k = idx + (k + 1) := by omega
          rw [this]
        · rw [if_neg hc]
          show (if b > st.largest then LcpState.mk (some (idx + 1 + k)) b else st)
            = if b > st.largest then LcpState.mk (some (idx + (k + 1))) b else st
          have : idx + 1 + k = idx + (k + 1) := by omega
          rw [this]

theorem firstMax_get :
    ∀ (l : List (Node × Int)) (k : Nat) (b : Int),
      firstMaxIdx (l.map Prod.snd) = some (k, b) →
      ∃ p, l.get? k = some p ∧ p.2 = b ∧ firstMax l = some p
  | [], _, _ => fun h => by cases h
  | p :: ps, k, b => fun h => by
    simp only [List.map_cons, firstMaxIdx] at h
    cases hr : firstMaxIdx (ps.map Prod.snd) with
    | none =>
      rw [hr] at h
      have hps : ps = [] := List.map_eq_nil.mp (firstMaxIdx_none _ hr)
      subst hps
      have hk : 0 = k ∧ p.2 = b := by
        have := Option.some.inj h
        exact ⟨congrArg Prod.fst this, congrArg Prod.snd this⟩
      obtain ⟨hk0, hpb⟩ := hk
      subst hk0
      exact ⟨p, rfl, hpb, rfl⟩
    | some kb' =>
      obtain ⟨k', b'⟩ := kb'
      rw [hr] at h
      obtain ⟨q, hget, hqb, hfm⟩ := firstMax_get ps k' b' hr
      replace h : (if p.2 ≥ b' then some (0, p.2) else some (k' + 1, b'))
          = some (k, b) := h
      by_cases hab : p.2 ≥ b'
      · rw [if_pos hab] at h
        have hk : 0 = k ∧ p.2 = b := by
          have := Option.some.inj h
          exact ⟨congrArg Prod.fst this, congrArg Prod.snd this⟩
        obtain ⟨hk0, hpb⟩ := hk
        subst hk0
        refine ⟨p, rfl, hpb, ?_⟩
        simp only [firstMax, hfm]
        rw [if_pos (by rw [hqb]; exact hab)]
      · rw [if_neg hab] at h
        have hk : k' + 1 = k ∧ b' = b := by
          have := Option.some.inj h
          exact ⟨congrArg Prod.fst this, congrArg Prod.snd this⟩
        obtain ⟨hk0, hpb⟩ := hk
        subst hk0
        refine ⟨q, by simpa using hget, hqb.trans hpb, ?_⟩
        simp only [firstMax, hfm]
        rw [if_neg (by rw [hqb]; exact hab)]

theorem srcImgs_eq_sizedImgs (doc : List Node) (h : imgsUniform doc = true) :
    srcImgs doc = sizedImgs doc := by
  unfold srcImgs sizedImgs
  apply List.filter_congr
  intro n hn
  have hu := List.all_eq_true.mp h n hn
  by_cases ht : n.tagIs "img" = true
  · simp only [ht, Bool.not_true, Bool.false_or] at hu
    obtain ⟨h1, h2⟩ := band_true hu
    obtain ⟨h3, h4⟩ := band_true h1
    rw [h4]
    simp [isSrcImg, ht, h3]
  · have ht' : n.tagIs "img" = false := by
      cases hb : n.tagIs "img"
      · rfl
      · exact absurd hb ht
    simp [isSrcImg, isSizedImg, ht']

theorem keyedImgs_eq :
    ∀ l : List Node, (∀ i ∈ l, (areaKey i).isSome = true) →
      keyedImgs l = some (l.map (fun i => (i, (areaKey i).getD 0)))
  | [] => fun _ => rfl
  | i :: is => fun h => by
    have hi := h i (List.mem_cons_self _ _)
    cases ha : areaKey i with
    | none => rw [ha] at hi; cases hi
    | some a =>
      have ht := keyedImgs_eq is (fun j hj => h j (List.mem_cons_of_mem _ hj))
      simp only [keyedImgs, ha, ht, List.map_cons]
      simp [ha]

mutual
theorem imgsNode_map_fst :
    ∀ n : Node, ∀ pp mp : List Node,
      (imgsNode pp mp n).map Prod.fst = (nodeElems n).filter isSrcImg
  | .text s => fun _ _ => rfl
  | .elem t a c => fun pp mp => by
    have hc := imgsForestGo_map_fst c mp []
    show ((if isSrcImg (.elem t a c) then [(Node.elem t a c, posLen pp)] else [])
        ++ imgsForestGo mp [] c).map Prod.fst
      = (Node.elem t a c :: forestElems c).filter isSrcImg
    rw [List.map_append, hc, List.filter_cons]
    by_cases hi : isSrcImg (.elem t a c) = true
    · rw [if_pos hi, if_pos (by simpa using hi)]; rfl
    · rw [if_neg (by simpa using hi), if_neg (by simpa using hi)]; rfl
theorem imgsForestGo_map_fst :
    ∀ l : List Node, ∀ pp acc : List Node,
      (imgsForestGo pp acc l).map Prod.fst = (forestElems l).filter isSrcImg
  | [] => fun _ _ => rfl
  | n :: ns => fun pp acc => by
    cases n with
    | text s =>
      have h1 := imgsNode_map_fst (.text s) pp acc
      have h2 := imgsForestGo_map_fst ns pp acc
      show (imgsNode pp acc (.text s) ++ imgsForestGo pp acc ns).map Prod.fst
        = (nodeElems (.text s) ++ forestElems ns).filter isSrcImg
      rw [List.map_append, h1, h2, List.filter_append]
    | elem t a c =>
      have h1 := imgsNode_map_fst (.elem t a c) pp acc
      have h2 := imgsForestGo_map_fst ns pp (Node.elem t a c :: acc)
      show (imgsNode pp acc (.elem t a c)
          ++ imgsForestGo pp (Node.elem t a c :: acc) ns).map Prod.fst
        = (nodeElems (.elem t a c) ++ forestElems ns).filter isSrcImg
      rw [List.map_append, h1, h2, List.filter_append]
end

/-! ## The live image walk: coherence with the scan, and collapse to the
static walk when the loop leaves the tree unchanged -/

theorem processImgStep_fst (idx pos : Nat) (out : ImgOut) (st : LcpState) (r : ImgResource) :
    (processImgStep idx pos (out, st) r).1 = mutateImgStep out r := by
  simp only [processImgStep, mutateImgStep]
  by_cases h : (r.element == out.final) = true
  · rw [if_pos h, if_pos h]
    cases r.local_path with
    | none => rfl
    | some lp =>
      cases r.width with
      | none => cases r.height <;> rfl
      | some w =>
        cases r.height with
        | none => rfl
        | some hv =>
          by_cases hcc : (pos < viewportHeight && w * hv > st.largest) = true
          · simp only [hcc, if_true]
          · simp only [Bool.not_eq_true] at hcc
            simp only [hcc, Bool.false_eq_true, if_false]
  · rw [if_neg (by simpa using h), if_neg (by simpa using h)]

theorem mutateImgStep_id (out : ImgOut) (r : ImgResource) (i : Node) (w hh : Int)
    (lp : String) (hfin : out.final = i)
    (hlp : r.local_path = some lp) (hsrc : i.getAttr "src" = some lp)
    (hw : r.width = some w) (hh2 : r.height = some hh)
    (hwa : i.getAttr "width" = some (toString w))
    (hha : i.getAttr "height" = some (toString hh))
    (hweb : r.webp_path = none) :
    mutateImgStep out r = out := by
  have e1 : i.setAttr "src" lp = i := setAttr_self _ _ _ hsrc
  have e2 : i.setAttr "width" (toString w) = i := setAttr_self _ _ _ hwa
  have e3 : i.setAttr "height" (toString hh) = i := setAttr_self _ _ _ hha
  by_cases h : (r.element == out.final) = true
  · simp only [mutateImgStep, h, if_true, hfin, hlp, hw, hh2, e1, e2, e3, hweb]
    rw [if_pos (hfin ▸ h), ← hfin]
  · simp only [mutateImgStep]
    rw [if_neg (by simpa using h)]

/-- Under the `goodImg` conditions the loop's mutations are invisible: the
image's element is unchanged and no webp wrap is recorded. -/
theorem mutateImg_good (res : List ImgResource) (i : Node) (pos : Nat)
    (hg : goodImg res i pos = true) :
    mutateImg res i = { final := i, webps := [] } := by
  obtain ⟨-, r, w, hv, lp, hfil, hlp, hsrc, hweb, hw, hh2, hwa, hha, -, -⟩ :=
    goodImg_spec res i pos hg
  have honly : ∀ r' ∈ res, (r'.element == i) = true → r' = r := by
    intro r' hmem hr'
    have : r' ∈ res.filter (fun q => q.element == i) := List.mem_filter.mpr ⟨hmem, hr'⟩
    rw [hfil] at this
    simpa using this
  have main : ∀ l : List ImgResource, (∀ r' ∈ l, (r'.element == i) = true → r' = r) →
      l.foldl mutateImgStep { final := i, webps := [] } = { final := i, webps := [] } := by
    intro l
    induction l with
    | nil => intro _; rfl
    | cons r' rest ih =>
      intro hmem
      rw [List.foldl_cons]
      have hstep : mutateImgStep { final := i, webps := [] } r'
          = { final := i, webps := [] } := by
        by_cases hr' : (r'.element == i) = true
        · have hre : r' = r := hmem r' (List.mem_cons_self _ _) hr'
          subst hre
          exact mutateImgStep_id _ r' i w hv lp rfl hlp hsrc hw hh2 hwa hha hweb
        · simp only [mutateImgStep]
          rw [if_neg (by simpa using hr')]
      rw [hstep]
      exact ih (fun q hq => hmem q (List.mem_cons_of_mem _ hq))
  exact main res honly

mutual
theorem liveNode_id (res : List ImgResource) :
    ∀ n : Node,
      (∀ i ∈ (nodeElems n).filter isSrcImg, mutateImg res i = { final := i, webps := [] }) →
      liveNode res n = ([n], [])
  | .text s => fun _ => rfl
  | .elem t a c => fun h => by
    have hc : ∀ i ∈ (forestElems c).filter isSrcImg,
        mutateImg res i = { final := i, webps := [] } := by
      intro i hi
      apply h
      show i ∈ (Node.elem t a c :: forestElems c).filter isSrcImg
      rw [List.filter_cons]
      by_cases hs : isSrcImg (Node.elem t a c) = true
      · rw [if_pos (by simpa using hs)]
        exact List.mem_cons_of_mem _ hi
      · rw [if_neg (by simpa using hs)]
        exact hi
    have hcf := liveForest_id res c hc
    by_cases hs : isSrcImg (.elem t a c) = true
    · have hm : mutateImg res (.elem t a c) = { final := .elem t a c, webps := [] } := by
        apply h
        show Node.elem t a c ∈ (Node.elem t a c :: forestElems c).filter isSrcImg
        rw [List.filter_cons, if_pos (by simpa using hs)]
        exact List.mem_cons_self _ _
      simp [liveNode, hcf, hs, hm, Node.attrs]
    · simp [liveNode, hcf, hs]
theorem liveForest_id (res : List ImgResource) :
    ∀ l : List Node,
      (∀ i ∈ (forestElems l).filter isSrcImg, mutateImg res i = { final := i, webps := [] }) →
      liveForest res l = (l, [])
  | [] => fun _ => rfl
  | n :: ns => fun h => by
    have hsplit : ∀ i, i ∈ (nodeElems n).filter isSrcImg ∨
        i ∈ (forestElems ns).filter isSrcImg →
        mutateImg res i = { final := i, webps := [] } := by
      intro i hi
      apply h
      show i ∈ (nodeElems n ++ forestElems ns).filter isSrcImg
      rw [List.filter_append]
      exact List.mem_append.mpr hi
    have hn := liveNode_id res n (fun i hi => hsplit i (Or.inl hi))
    have hns := liveForest_id res ns (fun i hi => hsplit i (Or.inr hi))
    simp [liveForest, hn, hns]
end

mutual
theorem liveImgsNode_static (res : List ImgResource) :
    ∀ n : Node,
      (∀ i ∈ (nodeElems n).filter isSrcImg, mutateImg res i = { final := i, webps := [] }) →
      ∀ pp mp : List Node, liveImgsNode res pp mp n = imgsNode pp mp n
  | .text s => fun _ _ _ => rfl
  | .elem t a c => fun h pp mp => by
    have hc : ∀ i ∈ (forestElems c).filter isSrcImg,
        mutateImg res i = { final := i, webps := [] } := by
      intro i hi
      apply h
      show i ∈ (Node.elem t a c :: forestElems c).filter isSrcImg
      rw [List.filter_cons]
      by_cases hs : isSrcImg (Node.elem t a c) = true
      · rw [if_pos (by simpa using hs)]
        exact List.mem_cons_of_mem _ hi
      · rw [if_neg (by simpa using hs)]
        exact hi
    have hgo := liveImgsGo_static res c hc mp []
    show (if isSrcImg (.elem t a c) then [(Node.elem t a c, posLen pp)] else [])
        ++ liveImgsGo res mp [] c
      = (if isSrcImg (.elem t a c) then [(Node.elem t a c, posLen pp)] else [])
        ++ imgsForestGo mp [] c
    rw [hgo]
theorem liveImgsGo_static (res : List ImgResource) :
    ∀ l : List Node,
      (∀ i ∈ (forestElems l).filter isSrcImg, mutateImg res i = { final := i, webps := [] }) →
      ∀ pp acc : List Node, liveImgsGo res pp acc l = imgsForestGo pp acc l
  | [] => fun _ _ _ => rfl
  | n :: ns => fun h pp acc => by
    have hsplit : ∀ i, i ∈ (nodeElems n).filter isSrcImg ∨
        i ∈ (forestElems ns).filter isSrcImg →
        mutateImg res i = { final := i, webps := [] } := by
      intro i hi
      apply h
      show i ∈ (nodeElems n ++ forestElems ns).filter isSrcImg
      rw [List.filter_append]
      exact List.mem_append.mpr hi
    have hn := liveImgsNode_static res n (fun i hi => hsplit i (Or.inl hi)) pp acc
    have hns := liveImgsGo_static res ns (fun i hi => hsplit i (Or.inr hi)) pp
    cases n with
    | text s =>
      show liveImgsNode res pp acc (.text s) ++ liveImgsGo res pp acc ns
        = imgsNode pp acc (.text s) ++ imgsForestGo pp acc ns
      rw [hn, hns acc]
    | elem t a c =>
      have hkeep : (liveNode res (.elem t a c)).1 = [Node.elem t a c] := by
        rw [liveNode_id res (.elem t a c) (fun i hi => hsplit i (Or.inl hi))]
      show liveImgsNode res pp acc (.elem t a c)
          ++ liveImgsGo res pp ((liveNode res (.elem t a c)).1 ++ acc) ns
        = imgsNode pp acc (.elem t a c) ++ imgsForestGo pp (Node.elem t a c :: acc) ns
      rw [hn, hkeep, hns]
      rfl
end

mutual
theorem liveImgsNode_map_fst (res : List ImgResource) :
    ∀ n : Node, ∀ pp mp : List Node,
      (liveImgsNode res pp mp n).map Prod.fst = (nodeElems n).filter isSrcImg
  | .text s => fun _ _ => rfl
  | .elem t a c => fun pp mp => by
    have hc := liveImgsGo_map_fst res c mp []
    show ((if isSrcImg (.elem t a c) then [(Node.elem t a c, posLen pp)] else [])
        ++ liveImgsGo res mp [] c).map Prod.fst
      = (Node.elem t a c :: forestElems c).filter isSrcImg
    rw [List.map_append, hc, List.filter_cons]
    by_cases hi : isSrcImg (.elem t a c) = true
    · rw [if_pos hi, if_pos (by simpa using hi)]; rfl
    · rw [if_neg (by simpa using hi), if_neg (by simpa using hi)]; rfl
theorem liveImgsGo_map_fst (res : List ImgResource) :
    ∀ l : List Node, ∀ pp acc : List Node,
      (liveImgsGo res pp acc l).map Prod.fst = (forestElems l).filter isSrcImg
  | [] => fun _ _ => rfl
  | n :: ns => fun pp acc => by
    cases n with
    | text s =>
      have h1 := liveImgsNode_map_fst res (.text s) pp acc
      have h2 := liveImgsGo_map_fst res ns pp acc
      show (liveImgsNode res pp acc (.text s) ++ liveImgsGo res pp acc ns).map Prod.fst
        = (nodeElems (.text s) ++ forestElems ns).filter isSrcImg
      rw [List.map_append, h1, h2, List.filter_append]
    | elem t a c =>
      have h1 := liveImgsNode_map_fst res (.elem t a c) pp acc
      have h2 := liveImgsGo_map_fst res ns pp ((liveNode res (.elem t a c)).1 ++ acc)
      show (liveImgsNode res pp acc (.elem t a c)
          ++ liveImgsGo res pp ((liveNode res (.elem t a c)).1 ++ acc) ns).map Prod.fst
        = (nodeElems (.elem t a c) ++ forestElems ns).filter isSrcImg
      rw [List.map_append, h1, h2, List.filter_append]
end

/-- The live walk is not the static one: wrapping the first image in a
`picture` (a matching resource with a WebP copy) inflates the second
image's live position proxy past its static value. -/
theorem liveImgInfos_sees_wraps :
    (liveImgInfos [imgResWebp] wrapDoc).map Prod.snd
      ≠ (imgInfos wrapDoc).map Prod.snd := by decide

/-- Counterexample to the literal C5: on a document with one sized image but
no downloaded image resources, the step-6 scan selects no LCP candidate,
while the above-fold dominant-image heuristic recomputed on the transformed
tree selects the image.  The two selection procedures are not equivalent
functions of the image collection: the scan consults `self.resources`, the
heuristic only the tree. -/
theorem C5_counterexample :
    lcpCandidateOf stateNoRes = none ∧
      (stageScripts stateNoRes).bind dominantImage = some imgSquare := by decide

/-- C5 (amended): provided the link/script stages succeed on the document,
images of the transformed tree are childless (as the HTML parser guarantees
for the void element `img`) and declare `src` and integer `width`/`height`
attributes, and every image of the live loop passes the `goodImg` conditions
(live position proxy under the 800 gate, exactly one structurally matching
downloaded resource whose recorded path and dimensions agree with the
declared attributes and which carries no WebP copy, positive declared
area), the loop's mutations leave the tree unchanged, the per-iteration
position recomputation of line 323 keeps reading the unmutated tree, and
the LCP candidate chosen by the step-6 scan of `_optimize_html` is exactly
the dominant image of the `find_above_fold_elements` heuristic recomputed
on the transformed tree. -/
theorem C5_lcp_agreement_amended (σ : OptimizerState) (d4 : List Node)
    (hstage : stageScripts σ = some d4)
    (hleaf : imgsLeaf d4 = true)
    (huni : imgsUniform d4 = true)
    (hgoodL : (liveImgInfos σ.resources_images d4).all
      (fun ip => goodImg σ.resources_images ip.1 ip.2) = true) :
    lcpCandidateOf σ = dominantImage d4 := by
  have hmut : ∀ i ∈ (forestElems d4).filter isSrcImg,
      mutateImg σ.resources_images i = { final := i, webps := [] } := by
    intro i hi
    have hm : i ∈ (liveImgInfos σ.resources_images d4).map Prod.fst := by
      unfold liveImgInfos
      rw [liveImgsGo_map_fst σ.resources_images d4 [] []]
      exact hi
    obtain ⟨ip, hipm, hipe⟩ := List.mem_map.mp hm
    subst hipe
    exact mutateImg_good σ.resources_images ip.1 ip.2
      (by simpa using List.all_eq_true.mp hgoodL ip hipm)
  have hstat : liveImgInfos σ.resources_images d4 = imgInfos d4 :=
    liveImgsGo_static σ.resources_images d4 hmut [] []
  have hgood : (imgInfos d4).all (fun ip => goodImg σ.resources_images ip.1 ip.2) = true := by
    rw [← hstat]
    exact hgoodL
  have htif : transformImgInfos σ = imgInfos d4 := by
    unfold transformImgInfos
    rw [hstage]
    exact hstat
  have halign : (imgInfos d4).map Prod.fst = sizedImgs d4 := by
    have h1 := imgsForestGo_map_fst d4 [] []
    have h2 : srcImgs d4 = sizedImgs d4 := srcImgs_eq_sizedImgs d4 huni
    unfold srcImgs at h2
    unfold imgInfos
    rw [h1]
    exact h2
  have hiso : ∀ i ∈ sizedImgs d4, (areaKey i).isSome = true := by
    intro i hi
    have hsz : isSizedImg i = true := List.of_mem_filter hi
    have himg : i.tagIs "img" = true := (band_true (band_true hsz).1).1
    have hmem : i ∈ forestElems d4 := List.mem_of_mem_filter hi
    have hu := List.all_eq_true.mp huni i hmem
    simp only [himg, Bool.not_true, Bool.false_or] at hu
    exact (band_true hu).2
  have hkey : keyedImgs (sizedImgs d4)
      = some ((sizedImgs d4).map (fun i => (i, (areaKey i).getD 0))) :=
    keyedImgs_eq (sizedImgs d4) hiso
  have hareas : (imgInfos d4).map (fun ip => (areaKey ip.1).getD 0)
      = ((sizedImgs d4).map (fun i => (i, (areaKey i).getD 0))).map Prod.snd := by
    rw [← halign]
    simp [List.map_map, Function.comp]
  have hidx : lcpIndexOf σ
      = (scanSpec 0 (LcpState.mk none 0)
          ((imgInfos d4).map (fun ip => (areaKey ip.1).getD 0))).cand := by
    unfold lcpIndexOf
    rw [htif, processImgsGo_scan σ.resources_images (imgInfos d4) 0 _ hgood]
  cases hfm : firstMaxIdx ((imgInfos d4).map (fun ip => (areaKey ip.1).getD 0)) with
  | none =>
    have hinil : imgInfos d4 = [] :=
      List.map_eq_nil_iff.mp (firstMaxIdx_none _ hfm)
    have hsnil : sizedImgs d4 = [] := by
      rw [← halign, hinil]
      rfl
    have hlc : lcpCandidateOf σ = none := by
      unfold lcpCandidateOf
      rw [hidx, scanSpec_eq, hfm]
      rfl
    rw [hlc]
    unfold dominantImage
    rw [hkey, hsnil]
    rfl
  | some kb =>
    obtain ⟨k, b⟩ := kb
    obtain ⟨p, hget, hpb, hfmx⟩ :=
      firstMax_get ((sizedImgs d4).map (fun i => (i, (areaKey i).getD 0))) k b
        (by rw [← hareas]; exact hfm)
    have hpmem : p ∈ (sizedImgs d4).map (fun i => (i, (areaKey i).getD 0)) :=
      List.get?_mem hget
    obtain ⟨i, hiMem, hip⟩ := List.mem_map.mp hpmem
    have hiInfos : ∃ ip ∈ imgInfos d4, ip.1 = i := by
      have hm : i ∈ (imgInfos d4).map Prod.fst := by
        rw [halign]
        exact hiMem
      obtain ⟨ip, hipm, hipe⟩ := List.mem_map.mp hm
      exact ⟨ip, hipm, hipe⟩
    obtain ⟨ip, hipm, hipe⟩ := hiInfos
    subst hipe
    have hg : goodImg σ.resources_images ip.1 ip.2 = true := by
      simpa using List.all_eq_true.mp hgood ip hipm
    obtain ⟨-, r, w, hv, lp, -, -, -, -, -, -, -, -, hak, hpos0⟩ :=
      goodImg_spec _ _ _ hg
    have hbpos : b > 0 := by
      rw [← hpb, ← hip]
      show (areaKey ip.1).getD 0 > 0
      rw [hak]
      simpa using hpos0
    have hcand :
        (scanSpec 0 (LcpState.mk none 0)
          ((imgInfos d4).map (fun q => (areaKey q.1).getD 0))).cand = some k := by
      rw [scanSpec_eq, hfm]
      show (if b > (LcpState.mk none 0).largest then LcpState.mk (some (0 + k)) b
        else LcpState.mk none 0).cand = some k
      rw [if_pos (by simpa using hbpos)]
      show some (0 + k) = some k
      rw [Nat.zero_add]
    have hgetI : ((imgInfos d4).get? k).map Prod.fst = some p.1 := by
      rw [← List.get?_map, halign]
      have h2 : ∀ l : List Node,
          (l.map (fun i => (i, (areaKey i).getD 0))).map Prod.fst = l := by
        intro l
        induction l with
        | nil => rfl
        | cons x xs ihx => simp [ihx]
      rw [← h2 (sizedImgs d4), List.get?_map, hget]
      rfl
    have hlc : lcpCandidateOf σ = some p.1 := by
      unfold lcpCandidateOf
      rw [hidx, hcand]
      show ((transformImgInfos σ).get? k).map Prod.fst = some p.1
      rw [htif]
      exact hgetI
    rw [hlc]
    unfold dominantImage
    rw [hkey]
    show some p.1
      = (firstMax ((sizedImgs d4).map (fun i => (i, (areaKey i).getD 0)))).map Prod.fst
    rw [hfmx]
    rfl

/-- Witness for the amended C5 at a concrete state: two matching sized
images whose resources agree with their declared dimensions; both selection
procedures pick the wide image. -/
theorem C5_lcp_agreement_amended_witness :
    stageScripts stateMatch = some stateMatchD4 ∧
      imgsLeaf stateMatchD4 = true ∧
      imgsUniform stateMatchD4 = true ∧
      (liveImgInfos stateMatch.resources_images stateMatchD4).all
        (fun ip => goodImg stateMatch.resources_images ip.1 ip.2) = true ∧
      lcpCandidateOf stateMatch = dominantImage stateMatchD4 :=
  ⟨by decide, by decide, by decide, by decide,
    C5_lcp_agreement_amended stateMatch stateMatchD4 (by decide) (by decide) (by decide)
      (by decide)⟩

end PagespeedAI
